import Mathlib

/-!
A shallow embedding of the mwm window manager's workspace/layout engine
(`mwm.c` together with its `config.h`), and theorems about its commands.

Modelling conventions:
* C `double` (CGFloat) values are embedded as exact rationals `Q` with an
  integer numerator and a natural denominator (convention: denominators are
  positive in every state that corresponds to a run of the program).
  Conversion `double -> int` (C cast) truncates toward zero, embedded by
  `cInt` via `Int.tdiv`.
* Pointers to `Client` records are embedded by the window handle `win`
  carried by the record; the registry invariant that no two clients share a
  handle makes this identification exact.  `sel`/`lastsel` hold a copy of
  the pointee; mutating commands keep the copies in sync with the registry.
  A copy whose `win` is no longer in the registry models a dangling pointer
  to freed-but-intact memory.
* External effects (moving real windows, the status bar, writing the state
  file) are dropped; the persisted snapshot appears as an explicit value.
-/

namespace Mwm

/-- An exact rational standing in for a C `double`.  The value is
`num / den`; operations never normalize. -/
structure Q where
  num : Int
  den : Nat
deriving DecidableEq

/-- Embeds an integer as a `Q`. -/
def qofInt (n : Int) : Q := ⟨n, 1⟩

/-- Addition of `Q` values (cross multiplication, no normalization). -/
def qadd (a b : Q) : Q := ⟨a.num * b.den + b.num * a.den, a.den * b.den⟩

/-- Subtraction of `Q` values. -/
def qsub (a b : Q) : Q := ⟨a.num * b.den - b.num * a.den, a.den * b.den⟩

/-- Multiplication of `Q` values. -/
def qmul (a b : Q) : Q := ⟨a.num * b.num, a.den * b.den⟩

/-- Division of a `Q` value by a natural number. -/
def qdivNat (a : Q) (n : Nat) : Q := ⟨a.num, a.den * n⟩

/-- Value comparison `a < b` (valid for positive denominators). -/
def qlt (a b : Q) : Bool := decide (a.num * b.den < b.num * a.den)

/-- Value equality of `Q` (the embedding of C `==` on doubles). -/
def qeqb (a b : Q) : Bool := decide (a.num * (b.den : Int) = b.num * (a.den : Int))

/-- The C cast `(int)` applied to a double: truncation toward zero. -/
def cInt (q : Q) : Int := Int.tdiv q.num q.den

/-- A CGRect: origin and size. -/
structure Rect where
  x : Q
  y : Q
  w : Q
  h : Q
deriving DecidableEq

/-- Value equality of rectangles (`CGRectEqualToRect`). -/
def rectEqb (a b : Rect) : Bool :=
  qeqb a.x b.x && qeqb a.y b.y && qeqb a.w b.w && qeqb a.h b.h

/-- One managed window (`struct Client`).  `isfullscreen` is reused by the
reconciler as a staleness marker (`-1` = stale), exactly as in the source. -/
structure Client where
  name : String
  frame : Rect
  win : Nat
  pid : Nat
  tags : Nat
  isfloating : Bool
  isfullscreen : Int
deriving DecidableEq

/-- A display (`struct Monitor`): owned tags, two-slot view history and the
selector into it. -/
structure Monitor where
  rect : Rect
  tags : Nat
  tagset0 : Nat
  tagset1 : Nat
  seltags : Bool
deriving DecidableEq

/-- A rule from `config.h`: app-name substring, tag mask (0 = keep current),
floating flag. -/
structure Rule where
  app : String
  tags : Nat
  isfloating : Bool
deriving DecidableEq

/-- One entry of the persisted state file: app name, tags, floating. -/
structure SnapEntry where
  app : String
  tags : Nat
  floating : Bool
deriving DecidableEq

/-- The whole mutable state of the window manager: the client registry in
insertion order (head = most recently added), selection state, monitors,
layout parameters, the process-global legacy tagset, the selected layout
index and the `windowschanged` flag. -/
structure WM where
  clients : List Client
  sel : Option Client
  lastsel : Option Client
  monitors : List Monitor
  g_mfact : Q
  g_nmaster : Nat
  seltags : Bool
  tagset0 : Nat
  tagset1 : Nat
  sellay : Nat
  windowschanged : Bool
deriving DecidableEq

/-- `TAGMASK` for the nine configured tags. -/
def TAGMASK : Nat := 511

/-- `gappx` from `config.h`. -/
def gappx : Int := 10

/-- Number of layouts (`LayoutLast`). -/
def LayoutLast : Int := 3

/-- The rule table from `config.h`. -/
def configRules : List Rule :=
  [⟨"System Preferences", 0, true⟩, ⟨"System Settings", 0, true⟩,
   ⟨"Calculator", 0, true⟩, ⟨"Preview", 0, true⟩]

/-- The monitor's currently active tag mask (`m->tagset[m->seltags]`). -/
def curtags (m : Monitor) : Nat := if m.seltags then m.tagset1 else m.tagset0

/-- Writes the monitor's currently active tag slot. -/
def setCur (m : Monitor) (t : Nat) : Monitor :=
  if m.seltags then { m with tagset1 := t } else { m with tagset0 := t }

/-- The process-global `tagset[seltags]` (never rewritten after setup in the
multi-monitor code; `manage` still reads it). -/
def globaltags (wm : WM) : Nat := if wm.seltags then wm.tagset1 else wm.tagset0

/-- `ISVISIBLE`: the client's tags intersect the active mask of some
monitor. -/
def isvisible (mons : List Monitor) (c : Client) : Bool :=
  mons.any (fun m => (c.tags &&& curtags m) != 0)

/-- Whether the pattern is a leading segment of the text. -/
def leadMatch : List Char → List Char → Bool
  | [], _ => true
  | _ :: _, [] => false
  | p :: ps, h :: hs => p == h && leadMatch ps hs

/-- `strstr`: whether the pattern occurs inside the text. -/
def hasSub (pat : List Char) : List Char → Bool
  | [] => leadMatch pat []
  | h :: hs => leadMatch pat (h :: hs) || hasSub pat hs

/-- A total indexing of the monitor list (the source indexes a C array). -/
def monAt (mons : List Monitor) (i : Nat) : Monitor :=
  mons.getD i ⟨⟨qofInt 0, qofInt 0, qofInt 0, qofInt 0⟩, 0, 0, 0, false⟩

/-- `getmonitorbytags`: index of the first monitor owning one of the given
tags, defaulting to monitor 0. -/
def getMonIdxByTags (mons : List Monitor) (t : Nat) : Nat :=
  let i := mons.findIdx (fun m => (t &&& m.tags) != 0)
  if i < mons.length then i else 0

/-- `focus(c)` for a non-null client: the displaced selection becomes
`lastsel` (only when it differs from `c`), then `c` becomes selected.
The raise/activate calls are external effects. -/
def focusWM (wm : WM) (c : Client) : WM :=
  let ls := match wm.sel with
    | some s => if s.win ≠ c.win then some s else wm.lastsel
    | none => wm.lastsel
  { wm with sel := some c, lastsel := ls }

/-- The first visible client in registry order. -/
def firstVisible (wm : WM) : Option Client :=
  wm.clients.find? (fun c => isvisible wm.monitors c)

/-- The per-monitor geometry computed at the top of `tile` (all `int`
variables).  The stack fields are unused (left 0) when all clients fit the
master column. -/
structure TileGeom where
  mx : Int
  my : Int
  mw : Int
  mh : Int
  sx : Int
  sy : Int
  sw : Int
  sh : Int
deriving DecidableEq

/-- Number of visible, non-floating clients whose tags intersect the
monitor's owned tags. -/
def countTiledOn (mons : List Monitor) (m : Monitor) (cs : List Client) : Nat :=
  (cs.filter (fun c =>
    isvisible mons c && !c.isfloating && ((c.tags &&& m.tags) != 0))).length

/-- The area computation of `tile` for one monitor with `n` tiled clients. -/
def tileGeom (gap : Int) (nm : Nat) (mfact : Q) (m : Monitor) (n : Nat) : TileGeom :=
  let mx := cInt (qadd m.rect.x (qofInt gap))
  let my := cInt (qadd m.rect.y (qofInt gap))
  if n ≤ nm then
    { mx := mx, my := my,
      mw := cInt (qsub m.rect.w (qofInt (2 * gap))),
      mh := cInt (qdivNat (qsub m.rect.h (qofInt ((n + 1) * gap))) n),
      sx := 0, sy := 0, sw := 0, sh := 0 }
  else
    let mw := cInt (qmul (qsub m.rect.w (qofInt (3 * gap))) mfact)
    let mh := cInt (qdivNat (qsub m.rect.h (qofInt ((nm + 1) * gap))) nm)
    { mx := mx, my := my, mw := mw, mh := mh,
      sx := mx + mw + gap, sy := my,
      sw := cInt (qsub (qsub m.rect.w (qofInt mw)) (qofInt (3 * gap))),
      sh := cInt (qdivNat (qsub m.rect.h (qofInt (((n - nm) + 1) * gap))) (n - nm)) }

/-- The placement loop of `tile`: walks the registry, placing the `i`-th
tiled client of this monitor into the master or stack column. -/
def placeTile (mons : List Monitor) (mtags : Nat) (nm : Nat) (gap : Int)
    (g : TileGeom) : Nat → List Client → List Client
  | _, [] => []
  | i, c :: cs =>
    if isvisible mons c && !c.isfloating && ((c.tags &&& mtags) != 0) then
      let fr : Rect :=
        if i < nm then
          ⟨qofInt g.mx, qofInt (g.my + i * (g.mh + gap)),
           qofInt g.mw, qofInt g.mh⟩
        else
          ⟨qofInt g.sx, qofInt (g.sy + ((i : Int) - nm) * (g.sh + gap)),
           qofInt g.sw, qofInt g.sh⟩
      { c with frame := fr } :: placeTile mons mtags nm gap g (i + 1) cs
    else
      c :: placeTile mons mtags nm gap g i cs

/-- `tile` restricted to one monitor: counts the tiled clients, computes the
geometry, and places them. -/
def tileMon (mons : List Monitor) (gap : Int) (nm : Nat) (mfact : Q)
    (cs : List Client) (m : Monitor) : List Client :=
  let n := countTiledOn mons m cs
  if n = 0 then cs
  else placeTile mons m.tags nm gap (tileGeom gap nm mfact m n) 0 cs

/-- The `tile` layout over all monitors. -/
def tileAll (wm : WM) : List Client :=
  wm.monitors.foldl (fun cs m => tileMon wm.monitors gappx wm.g_nmaster wm.g_mfact cs m)
    wm.clients

/-- `monocle` restricted to one monitor: every visible non-floating client
of the monitor gets the monitor rectangle inset by the gap. -/
def monocleMon (mons : List Monitor) (gap : Int) (m : Monitor)
    (cs : List Client) : List Client :=
  cs.map (fun c =>
    if isvisible mons c && !c.isfloating && ((c.tags &&& m.tags) != 0) then
      { c with frame :=
        ⟨qadd m.rect.x (qofInt gap), qadd m.rect.y (qofInt gap),
         qsub m.rect.w (qofInt (2 * gap)), qsub m.rect.h (qofInt (2 * gap))⟩ }
    else c)

/-- The `monocle` layout over all monitors. -/
def monocleAll (wm : WM) : List Client :=
  wm.monitors.foldl (fun cs m => monocleMon wm.monitors gappx m cs) wm.clients

/-- Applies the selected layout's arrange function (`tile`, `monocle`, or
the floating no-op). -/
def applyLayout (wm : WM) : WM :=
  if wm.sellay = 0 then { wm with clients := tileAll wm }
  else if wm.sellay = 1 then { wm with clients := monocleAll wm }
  else wm

/-- The refocus step at the end of `arrange()`: keep the selection when it
is visible, otherwise focus the first visible client. -/
def arrangeFocus (wm1 : WM) : WM :=
  match wm1.sel with
  | some s =>
    if isvisible wm1.monitors s then wm1
    else
      match firstVisible wm1 with
      | some c => focusWM wm1 c
      | none => wm1
  | none =>
    match firstVisible wm1 with
    | some c => focusWM wm1 c
    | none => wm1

/-- `arrange()`: hide invisible windows (an external move, no registry
change), apply the layout, then focus the selected client if it is visible
and otherwise the first visible client. -/
def arrangeWM (wm : WM) : WM := arrangeFocus (applyLayout wm)

/-- `setmfact`: add the delta to the master fraction, rejecting results
below 0.1 or above 0.9. -/
def setmfactWM (wm : WM) (d : Q) : WM :=
  let f := qadd wm.g_mfact d
  if qlt f ⟨1, 10⟩ || qlt ⟨9, 10⟩ f then wm
  else arrangeWM { wm with g_mfact := f, windowschanged := true }

/-- `incnmaster`: bump the master count, floored at 0. -/
def incnmasterWM (wm : WM) (d : Int) : WM :=
  arrangeWM { wm with g_nmaster := (max 0 ((wm.g_nmaster : Int) + d)).toNat,
                      windowschanged := true }

/-- `setlayout`: adopt the index only when it is in range, but set the
`windowschanged` flag and re-arrange in every case (as the source does). -/
def setlayoutWM (wm : WM) (i : Int) : WM :=
  let wm1 := if 0 ≤ i ∧ i < LayoutLast then { wm with sellay := i.toNat } else wm
  arrangeWM { wm1 with windowschanged := true }

/-- `cyclelayout`: advance the layout index, wrapping. -/
def cyclelayoutWM (wm : WM) : WM :=
  arrangeWM { wm with sellay := (wm.sellay + 1) % 3, windowschanged := true }

/-- Rewrites the tags of the registry entry behind pointer `w`. -/
def setTagsWin (w t : Nat) (cs : List Client) : List Client :=
  cs.map (fun c => if c.win = w then { c with tags := t } else c)

/-- Rewrites the floating flag of the registry entry behind pointer `w`. -/
def setFloatWin (w : Nat) (fl : Bool) (cs : List Client) : List Client :=
  cs.map (fun c => if c.win = w then { c with isfloating := fl } else c)

/-- Keeps a selection copy in sync with a store through pointer `w`. -/
def syncTags (w t : Nat) : Option Client → Option Client
  | some c => if c.win = w then some { c with tags := t } else some c
  | none => none

/-- `tag`: move the selected client to the given tags (only when the masked
argument is non-empty), re-arrange, persist, and focus the first visible
client. -/
def tagWM (wm : WM) (ui : Nat) : WM :=
  match wm.sel with
  | none => wm
  | some s =>
    if ui &&& TAGMASK ≠ 0 then
      let t := ui &&& TAGMASK
      let wm1 := arrangeWM
        { wm with clients := setTagsWin s.win t wm.clients,
                  sel := some { s with tags := t },
                  lastsel := syncTags s.win t wm.lastsel,
                  windowschanged := true }
      match firstVisible wm1 with
      | some c => focusWM wm1 c
      | none => wm1
    else wm

/-- `togglefloat`: flip the selected client's floating flag and re-arrange
(the persistence write is external). -/
def togglefloatWM (wm : WM) : WM :=
  match wm.sel with
  | none => wm
  | some s =>
    let nf := !s.isfloating
    arrangeWM
      { wm with clients := setFloatWin s.win nf wm.clients,
                sel := some { s with isfloating := nf },
                lastsel := (wm.lastsel.map (fun l =>
                  if l.win = s.win then { l with isfloating := nf } else l)),
                windowschanged := true }

/-- `view`: switch the owning monitor of the requested tags to view them,
flipping its history slot; no-op when it already views exactly them.  Then
re-arrange and focus the first visible client on that monitor. -/
def viewWM (wm : WM) (ui : Nat) : WM :=
  if wm.monitors.isEmpty then wm
  else
    let nt := ui &&& TAGMASK
    let i := getMonIdxByTags wm.monitors nt
    let m := monAt wm.monitors i
    if curtags m = nt then wm
    else
      let m1 := setCur { m with seltags := !m.seltags } nt
      let wm1 := arrangeWM
        { wm with monitors := wm.monitors.set i m1, windowschanged := true }
      match wm1.clients.find? (fun c =>
          isvisible wm1.monitors c && ((c.tags &&& m1.tags) != 0)) with
      | some c => focusWM wm1 c
      | none => wm1

/-- `toggleview`: XOR the masked argument into the owning monitor's active
tagset; commit (and re-arrange) only when the result is non-empty and
intersects the monitor's owned tags. -/
def toggleviewWM (wm : WM) (ui : Nat) : WM :=
  if wm.monitors.isEmpty then wm
  else
    let nt := ui &&& TAGMASK
    let i := getMonIdxByTags wm.monitors nt
    let m := monAt wm.monitors i
    let newtagset := curtags m ^^^ nt
    if newtagset ≠ 0 ∧ newtagset &&& m.tags ≠ 0 then
      arrangeWM { wm with monitors := wm.monitors.set i (setCur m newtagset),
                          windowschanged := true }
    else wm

/-- The `(tags, floating)` a freshly managed client ends up with: the
process-global tagset as default, then the first matching rule (tags only
when the rule's mask is non-zero, floating unconditionally), then a
matching snapshot entry (tags only when the saved mask is non-zero,
floating unconditionally). -/
def clientInitState (gtags : Nat) (app : Option String) (rules : List Rule)
    (snap : List SnapEntry) : Nat × Bool :=
  match app with
  | none => (gtags, false)
  | some a =>
    let afterRule : Nat × Bool :=
      match rules.find? (fun r => hasSub r.app.data a.data) with
      | some r => (if r.tags ≠ 0 then r.tags else gtags, r.isfloating)
      | none => (gtags, false)
    match snap.find? (fun e => e.app = a) with
    | some e => (if e.tags ≠ 0 then e.tags else afterRule.1, e.floating)
    | none => afterRule

/-- The client record built by `manage`. -/
def newClient (rules : List Rule) (snap : List SnapEntry) (win pid : Nat)
    (f : Rect) (nm : String) (app : Option String) (gtags : Nat) : Client :=
  let st := clientInitState gtags app rules snap
  { name := nm, frame := f, win := win, pid := pid,
    tags := st.1, isfloating := st.2, isfullscreen := 0 }

/-- `manage`: build the client (default tags from the process-global
tagset, then rule and snapshot overrides), prepend it to the registry, and
focus it. -/
def manageWM (rules : List Rule) (snap : List SnapEntry) (win pid : Nat)
    (f : Rect) (nm : String) (app : Option String) (wm : WM) : WM :=
  let c := newClient rules snap win pid f nm app (globaltags wm)
  focusWM { wm with clients := c :: wm.clients } c

/-- Removes the registry entry behind pointer `w` (`detach` + `free`). -/
def removeWin (w : Nat) : List Client → List Client
  | [] => []
  | c :: cs => if c.win = w then cs else c :: removeWin w cs

/-- `unmanage`: detach the client; if it was selected, the new registry
head becomes selected (`focus` on it changes nothing else, since `sel`
already equals it).  `lastsel` is not touched. -/
def unmanageWM (wm : WM) (w : Nat) : WM :=
  let cs := removeWin w wm.clients
  let wm1 := { wm with clients := cs }
  match wm.sel with
  | some s =>
    if s.win = w then
      match cs.head? with
      | some h => focusWM { wm1 with sel := some h } h
      | none => { wm1 with sel := none }
    else wm1
  | none => wm1

/-- The registry tail strictly after the entry behind pointer `w` (empty
when the pointer is not in the registry, matching the nulled `next` link of
a detached node). -/
def afterWin (w : Nat) : List Client → List Client
  | [] => []
  | c :: cs => if c.win = w then cs else afterWin w cs

/-- The registry segment strictly before the entry behind pointer `w` (the
whole registry when the pointer is not in it, as in the source's scan that
only stops at the selected node). -/
def beforeWin (w : Nat) : List Client → List Client
  | [] => []
  | c :: cs => if c.win = w then [] else c :: beforeWin w cs

/-- `focusnext`: first visible client after the selection, wrapping to the
segment before it; focus it when it exists and differs from the
selection. -/
def focusnextWM (wm : WM) : WM :=
  match wm.sel with
  | none => wm
  | some s =>
    let c? := match (afterWin s.win wm.clients).find? (isvisible wm.monitors) with
      | some c => some c
      | none => (beforeWin s.win wm.clients).find? (isvisible wm.monitors)
    match c? with
    | some c => if c.win ≠ s.win then focusWM wm c else wm
    | none => wm

/-- `focusprev`: last visible client before the selection, falling back to
the last visible client after it. -/
def focusprevWM (wm : WM) : WM :=
  match wm.sel with
  | none => wm
  | some s =>
    let l? := match ((beforeWin s.win wm.clients).filter (isvisible wm.monitors)).getLast? with
      | some l => some l
      | none => ((afterWin s.win wm.clients).filter (isvisible wm.monitors)).getLast?
    match l? with
    | some l => if l.win ≠ s.win then focusWM wm l else wm
    | none => wm

/-- `focuslast`: focus the previously selected client when it is visible.
The read goes through the stored copy, exactly like the source's pointer
dereference (which may reach freed memory). -/
def focuslastWM (wm : WM) : WM :=
  match wm.lastsel with
  | some l => if isvisible wm.monitors l then focusWM wm l else wm
  | none => wm

/-- `savestate`: serialize every client whose process name resolves and is
non-empty to a snapshot entry, in registry order. -/
def saveSnap (appOf : Nat → Option String) (cs : List Client) : List SnapEntry :=
  cs.filterMap (fun c =>
    match appOf c.pid with
    | some a => if a = "" then none else some ⟨a, c.tags, c.isfloating⟩
    | none => none)

/-- `restorestate`: the first snapshot entry for the app name. -/
def restoreSnap (a : String) (snap : List SnapEntry) : Option SnapEntry :=
  snap.find? (fun e => e.app = a)

/-- The environment the reconciler reads: live window geometry by handle,
titles, process names, the rule table and the persisted snapshot. -/
structure Env where
  fr : Nat → Rect
  nameOf : Nat → String
  appOf : Nat → Option String
  rules : List Rule
  snap : List SnapEntry

/-- Marks every registry entry stale (`isfullscreen = -1`). -/
def markStale (wm : WM) : WM :=
  { wm with clients := wm.clients.map (fun c => { c with isfullscreen := -1 }) }

/-- The reconciler's match test for a live window against a registry
entry: same owning process and equal live geometry. -/
def matchPred (e : Env) (win pid : Nat) (c : Client) : Bool :=
  c.pid == pid && rectEqb (e.fr win) (e.fr c.win)

/-- Marks the first entry satisfying the predicate as live
(`isfullscreen = 0`). -/
def markFirstMatch (p : Client → Bool) : List Client → List Client
  | [] => []
  | c :: cs => if p c then { c with isfullscreen := 0 } :: cs
               else c :: markFirstMatch p cs

/-- One live window processed by `updateclients`: mark the first matching
registry entry, or `manage` the window when none matches. -/
def stepWin (e : Env) (wm : WM) (wp : Nat × Nat) : WM :=
  if wm.clients.any (matchPred e wp.1 wp.2) then
    { wm with clients := markFirstMatch (matchPred e wp.1 wp.2) wm.clients }
  else
    manageWM e.rules e.snap wp.1 wp.2 (e.fr wp.1) (e.nameOf wp.1) (e.appOf wp.2) wm

/-- Sets `isfullscreen := 0` on the registry entry behind pointer `w`. -/
def setActiveWin (w : Nat) (cs : List Client) : List Client :=
  cs.map (fun c => if c.win = w then { c with isfullscreen := 0 } else c)

/-- The removal sweep at the end of `updateclients`, iterating over the
snapshot of the registry taken when the sweep starts: stale entries are
unmanaged, live ones get their marker reset. -/
def sweep : List Client → WM → WM
  | [], wm => wm
  | c :: rest, wm =>
    if c.isfullscreen = -1 then sweep rest (unmanageWM wm c.win)
    else sweep rest { wm with clients := setActiveWin c.win wm.clients }

/-- `updateclients`: mark everything stale, process the enumerated live
windows (as flattened `(window, owning pid)` pairs), then sweep. -/
def updateclientsWM (e : Env) (L : List (Nat × Nat)) (wm : WM) : WM :=
  let wm1 := L.foldl (stepWin e) (markStale wm)
  sweep wm1.clients wm1

/-- `scan`: one reconciliation tick; re-arranges (and clears the flag) only
when the client count changed or `windowschanged` was raised. -/
def scanWM (e : Env) (L : List (Nat × Nat)) (wm : WM) : WM :=
  let old := wm.clients.length
  let wm1 := updateclientsWM e L wm
  if old ≠ wm1.clients.length ∨ wm1.windowschanged then
    { arrangeWM wm1 with windowschanged := false }
  else wm1

/-- The state right after `setup()`: empty registry, both global tagset
slots at 1, default layout parameters, monitors as detected. -/
def initWM (mons : List Monitor) : WM :=
  { clients := [], sel := none, lastsel := none, monitors := mons,
    g_mfact := ⟨11, 20⟩, g_nmaster := 1, seltags := false,
    tagset0 := 1, tagset1 := 1, sellay := 0, windowschanged := false }

/-- The operations a run of the program can perform on the state. -/
inductive Op where
  | manage (win pid : Nat) (f : Rect) (nm : String) (app : Option String)
           (snap : List SnapEntry)
  | reconcile (e : Env) (L : List (Nat × Nat))
  | remove (w : Nat)
  | movetag (ui : Nat)
  | togglefloat
  | view (ui : Nat)
  | toggleview (ui : Nat)
  | setmfact (d : Q)
  | incnmaster (d : Int)
  | setlayout (i : Int)
  | cyclelayout
  | focusnext
  | focusprev
  | focuslast

/-- The semantics of one operation (`manage` uses the configured rule
table). -/
def execOp : Op → WM → WM
  | .manage win pid f nm app snap, wm => manageWM configRules snap win pid f nm app wm
  | .reconcile e L, wm => scanWM e L wm
  | .remove w, wm => unmanageWM wm w
  | .movetag ui, wm => tagWM wm ui
  | .togglefloat, wm => togglefloatWM wm
  | .view ui, wm => viewWM wm ui
  | .toggleview ui, wm => toggleviewWM wm ui
  | .setmfact d, wm => setmfactWM wm d
  | .incnmaster d, wm => incnmasterWM wm d
  | .setlayout i, wm => setlayoutWM wm i
  | .cyclelayout, wm => cyclelayoutWM wm
  | .focusnext, wm => focusnextWM wm
  | .focusprev, wm => focusprevWM wm
  | .focuslast, wm => focuslastWM wm

/-- The states reachable from startup (with any detected monitors) by any
sequence of operations. -/
inductive Reachable : WM → Prop where
  | start (mons : List Monitor) : Reachable (initWM mons)
  | step (o : Op) (s : WM) : Reachable s → Reachable (execOp o s)

/-! ### Structural lemmas: which fields each operation can touch -/

theorem applyLayout_shape (wm : WM) : ∃ cs, applyLayout wm = { wm with clients := cs } := by
  unfold applyLayout
  split_ifs
  · exact ⟨tileAll wm, rfl⟩
  · exact ⟨monocleAll wm, rfl⟩
  · exact ⟨wm.clients, rfl⟩

theorem focusWM_shape (wm : WM) (c : Client) :
    ∃ s l, focusWM wm c = { wm with sel := s, lastsel := l } := ⟨_, _, rfl⟩

theorem arrangeFocus_shape (wm : WM) :
    ∃ s l, arrangeFocus wm = { wm with sel := s, lastsel := l } := by
  unfold arrangeFocus
  split
  · split_ifs
    · exact ⟨_, _, rfl⟩
    · split
      · exact focusWM_shape wm _
      · exact ⟨_, _, rfl⟩
  · split
    · exact focusWM_shape wm _
    · exact ⟨_, _, rfl⟩

theorem arrangeWM_shape (wm : WM) :
    ∃ cs s l, arrangeWM wm = { wm with clients := cs, sel := s, lastsel := l } := by
  obtain ⟨cs, h⟩ := applyLayout_shape wm
  obtain ⟨s, l, h2⟩ := arrangeFocus_shape (applyLayout wm)
  exact ⟨cs, s, l, by rw [arrangeWM, h2, h]⟩

theorem arrangeWM_monitors (wm : WM) : (arrangeWM wm).monitors = wm.monitors := by
  obtain ⟨cs, s, l, h⟩ := arrangeWM_shape wm
  rw [h]

theorem arrangeWM_g_mfact (wm : WM) : (arrangeWM wm).g_mfact = wm.g_mfact := by
  obtain ⟨cs, s, l, h⟩ := arrangeWM_shape wm
  rw [h]

theorem arrangeWM_sellay (wm : WM) : (arrangeWM wm).sellay = wm.sellay := by
  obtain ⟨cs, s, l, h⟩ := arrangeWM_shape wm
  rw [h]

theorem arrangeWM_windowschanged (wm : WM) :
    (arrangeWM wm).windowschanged = wm.windowschanged := by
  obtain ⟨cs, s, l, h⟩ := arrangeWM_shape wm
  rw [h]

theorem arrangeWM_clients (wm : WM) :
    (arrangeWM wm).clients = (applyLayout wm).clients := by
  obtain ⟨s, l, h⟩ := arrangeFocus_shape (applyLayout wm)
  rw [arrangeWM, h]

/-! ### C4: `setmfact` boundary behavior -/

/-- C4.  `setMasterFraction` rejects any delta that would take the
fraction below 0.1 or above 0.9, leaving the whole state (in particular
the stored fraction and the `windowschanged` flag) exactly unchanged and
performing no re-arrange; otherwise the sum itself is stored (never a
clamped value). -/
theorem claimC4_setmfact_bounds (wm : WM) (d : Q) :
    ((qlt (qadd wm.g_mfact d) ⟨1, 10⟩ || qlt ⟨9, 10⟩ (qadd wm.g_mfact d)) = true →
        setmfactWM wm d = wm) ∧
    ((qlt (qadd wm.g_mfact d) ⟨1, 10⟩ || qlt ⟨9, 10⟩ (qadd wm.g_mfact d)) = false →
        (setmfactWM wm d).g_mfact = qadd wm.g_mfact d) := by
  constructor <;> intro h
  · unfold setmfactWM
    rw [if_pos h]
  · unfold setmfactWM
    rw [if_neg (by simp [h])]
    rw [arrangeWM_g_mfact]

/-- Witness for C4: rejected at 0.55 + 0.5 (would exceed 0.9), accepted at
0.55 + ⟨1, 20⟩ (= 0.6). -/
theorem claimC4_setmfact_bounds_witness :
    setmfactWM (initWM []) ⟨1, 2⟩ = initWM [] ∧
    (setmfactWM (initWM []) ⟨1, 20⟩).g_mfact = qadd (initWM []).g_mfact ⟨1, 20⟩ :=
  ⟨(claimC4_setmfact_bounds (initWM []) ⟨1, 2⟩).1 (by decide),
   (claimC4_setmfact_bounds (initWM []) ⟨1, 20⟩).2 (by decide)⟩

/-! ### C5: `setlayout` with an out-of-range index -/

/-- Counterexample to C5 as stated: an out-of-range `setlayout` is *not*
free of state change — it still raises the `windowschanged` flag (and runs
`arrange`), here taking the flag from `false` to `true`. -/
theorem claimC5_counterexample :
    (setlayoutWM (initWM []) (-1)).windowschanged = true ∧
    (initWM []).windowschanged = false := by
  constructor <;> decide

/-- C5 as amended: an out-of-range index leaves the selected layout
unchanged, but the `windowschanged` flag is still set and a re-arrange is
still performed — the command is exactly `arrange` on the state with the
flag raised. -/
theorem claimC5_amended (wm : WM) (i : Int) (h : i < 0 ∨ LayoutLast ≤ i) :
    setlayoutWM wm i = arrangeWM { wm with windowschanged := true } ∧
    (setlayoutWM wm i).sellay = wm.sellay := by
  have hc : ¬ (0 ≤ i ∧ i < LayoutLast) := by
    simp only [LayoutLast] at *
    omega
  have he : setlayoutWM wm i = arrangeWM { wm with windowschanged := true } := by
    unfold setlayoutWM
    rw [if_neg hc]
  refine ⟨he, ?_⟩
  rw [he, arrangeWM_sellay]

/-- Witness for C5 (amended) at index `-1` from the startup state. -/
theorem claimC5_amended_witness :
    setlayoutWM (initWM []) (-1) = arrangeWM { initWM [] with windowschanged := true } ∧
    (setlayoutWM (initWM []) (-1)).sellay = (initWM []).sellay :=
  claimC5_amended (initWM []) (-1) (by decide)

/-! ### C1: the two-client tile scenario -/

/-- The monitor of the C1 scenario: 1000x800 at the origin, owning tags
1 to 5, viewing tag 1. -/
def monC1 : Monitor :=
  { rect := ⟨qofInt 0, qofInt 0, qofInt 1000, qofInt 800⟩,
    tags := 31, tagset0 := 1, tagset1 := 1, seltags := false }

/-- The zero rectangle. -/
def rect0 : Rect := ⟨qofInt 0, qofInt 0, qofInt 0, qofInt 0⟩

/-- A non-floating client on tag 1 for the C1 scenario. -/
def clC1 (w : Nat) : Client :=
  { name := "", frame := rect0,
    win := w, pid := w, tags := 1, isfloating := false, isfullscreen := 0 }

/-- The C1 scenario: two visible non-floating clients, `masterCount = 1`,
`masterFraction = 0.55`, gap 10. -/
def wmC1 : WM := { initWM [monC1] with clients := [clC1 1, clC1 2] }

/-- Counterexample to C1 as stated: in the scenario, `tile` gives the
master client width 533 (not ≈544) and the stack client width 437 (not
≈426) — both are off by 11, beyond any rounding tolerance.  The spec's
own formula `masterFraction·(width − 3·gap) = 0.55·970 = 533.5` truncates
to 533, contradicting the spec's ≈544. -/
theorem claimC1_counterexample :
    (tileAll wmC1).map (fun c => c.frame) =
      [⟨qofInt 10, qofInt 10, qofInt 533, qofInt 780⟩,
       ⟨qofInt 553, qofInt 10, qofInt 437, qofInt 780⟩] ∧
    ¬ (((533 : Int) - 544).natAbs ≤ 8 ∧ ((437 : Int) - 426).natAbs ≤ 8) := by
  constructor
  · decide
  · decide

/-- C1 as amended: in the scenario the master client occupies
(10, 10, 533, 780) and the stack client (553, 10, 437, 780) — widths 533
and 437, both heights 780, both inset by the 10px gap — and the master
column width is the truncation of `masterFraction·(width − 3·gap)`. -/
theorem claimC1_amended :
    (tileAll wmC1).map (fun c => c.frame) =
      [⟨qofInt 10, qofInt 10, qofInt 533, qofInt 780⟩,
       ⟨qofInt 553, qofInt 10, qofInt 437, qofInt 780⟩] ∧
    cInt (qmul (qsub monC1.rect.w (qofInt (3 * gappx))) wmC1.g_mfact) = 533 := by
  constructor
  · decide
  · decide

/-! ### C2: the `toggleview` guard -/

/-- A monitor whose active mask is non-empty and intersects its owned
tags. -/
def goodMon (m : Monitor) : Bool :=
  (curtags m != 0) && ((curtags m &&& m.tags) != 0)

/-- The rejection condition of `toggleview`: XORing the masked delta into
the addressed monitor's active mask would make it empty or disjoint from
the monitor's owned tags. -/
def toggleRejected (wm : WM) (ui : Nat) : Prop :=
  curtags (monAt wm.monitors (getMonIdxByTags wm.monitors (ui &&& TAGMASK))) ^^^ (ui &&& TAGMASK) = 0 ∨
  (curtags (monAt wm.monitors (getMonIdxByTags wm.monitors (ui &&& TAGMASK))) ^^^ (ui &&& TAGMASK)) &&&
    (monAt wm.monitors (getMonIdxByTags wm.monitors (ui &&& TAGMASK))).tags = 0

theorem curtags_setCur (m : Monitor) (t : Nat) : curtags (setCur m t) = t := by
  unfold curtags setCur
  cases h : m.seltags <;> simp [h]

theorem tags_setCur (m : Monitor) (t : Nat) : (setCur m t).tags = m.tags := by
  unfold setCur
  cases h : m.seltags <;> simp [h]

/-- C2.  `toggleview` never leaves any monitor with an empty active mask
or one disjoint from its owned tags, and whenever the XOR result for the
addressed monitor would be empty or disjoint, the command is rejected with
the *whole* state (active masks, history slots, `windowschanged` flag)
unchanged. -/
theorem claimC2_toggleview_guard (wm : WM) (ui : Nat)
    (hall : wm.monitors.all goodMon = true) :
    (toggleviewWM wm ui).monitors.all goodMon = true ∧
    (toggleRejected wm ui → toggleviewWM wm ui = wm) := by
  unfold toggleviewWM
  by_cases he : wm.monitors.isEmpty
  · rw [if_pos he]
    exact ⟨hall, fun _ => rfl⟩
  rw [if_neg he]
  set nt := ui &&& TAGMASK with hnt
  set i := getMonIdxByTags wm.monitors nt with hi
  set m := monAt wm.monitors i with hm
  set newtagset := curtags m ^^^ nt with hnts
  by_cases hc : newtagset ≠ 0 ∧ newtagset &&& m.tags ≠ 0
  · rw [if_pos hc]
    constructor
    · rw [arrangeWM_monitors]
      simp only [List.all_eq_true] at hall ⊢
      intro x hx
      rcases List.mem_or_eq_of_mem_set hx with h | h
      · exact hall x h
      · subst h
        unfold goodMon
        rw [curtags_setCur, tags_setCur]
        simp only [Bool.and_eq_true, bne_iff_ne, ne_eq]
        exact ⟨hc.1, hc.2⟩
    · intro hrej
      unfold toggleRejected at hrej
      rw [← hnt, ← hi, ← hm, ← hnts] at hrej
      rcases hrej with h | h
      · exact absurd h hc.1
      · exact absurd h hc.2
  · rw [if_neg hc]
    exact ⟨hall, fun _ => rfl⟩

/-- Witness for C2 on a single well-configured monitor, toggling tag 2
into a view of tag 1. -/
theorem claimC2_toggleview_guard_witness :
    (toggleviewWM (initWM [monC1]) 2).monitors.all goodMon = true ∧
    (toggleRejected (initWM [monC1]) 2 → toggleviewWM (initWM [monC1]) 2 = initWM [monC1]) :=
  claimC2_toggleview_guard (initWM [monC1]) 2 (by decide)

/-! ### C10: `unmanage` leaves `lastsel` dangling -/

theorem removeWin_not_mem (w : Nat) (cs : List Client)
    (h : (cs.map (fun c => c.win)).Nodup) :
    w ∉ (removeWin w cs).map (fun c => c.win) := by
  induction cs with
  | nil => simp [removeWin]
  | cons c cs ih =>
    simp only [List.map_cons, List.nodup_cons] at h
    unfold removeWin
    split_ifs with hc
    · rw [← hc]
      exact h.1
    · simp only [List.map_cons, List.mem_cons]
      push_neg
      exact ⟨fun he => hc he.symm, ih h.2⟩

theorem unmanageWM_lastsel (wm : WM) (w : Nat) :
    (unmanageWM wm w).lastsel = wm.lastsel := by
  simp only [unmanageWM]
  split
  · split_ifs
    · split
      · simp [focusWM]
      · rfl
    · rfl
  · rfl

theorem unmanageWM_clients (wm : WM) (w : Nat) :
    (unmanageWM wm w).clients = removeWin w wm.clients := by
  simp only [unmanageWM]
  split
  · split_ifs with hw
    · split
      · simp [focusWM]
      · rfl
    · rfl
  · rfl

theorem unmanageWM_monitors (wm : WM) (w : Nat) :
    (unmanageWM wm w).monitors = wm.monitors := by
  simp only [unmanageWM]
  split
  · split_ifs with hw
    · split
      · simp [focusWM]
      · rfl
    · rfl
  · rfl

/-- C10.  `unmanage` never touches `lastsel` (only `sel` is reassigned):
after removing the client behind `lastsel`, the pointer still names a
window that is no longer in the registry, and a subsequent `focuslast`
(whose visibility test reads the freed record) selects that removed
client. -/
theorem claimC10_unmanage_dangling_lastsel (wm : WM) (w : Nat) (lc : Client)
    (hl : wm.lastsel = some lc) (hw : lc.win = w)
    (hnd : (wm.clients.map (fun c => c.win)).Nodup)
    (hvis : isvisible wm.monitors lc = true) :
    (unmanageWM wm w).lastsel = wm.lastsel ∧
    w ∉ ((unmanageWM wm w).clients.map (fun c => c.win)) ∧
    (focuslastWM (unmanageWM wm w)).sel = some lc ∧
    w ∉ ((focuslastWM (unmanageWM wm w)).clients.map (fun c => c.win)) := by
  have h1 := unmanageWM_lastsel wm w
  have h2 : w ∉ ((unmanageWM wm w).clients.map (fun c => c.win)) := by
    rw [unmanageWM_clients]
    exact removeWin_not_mem w wm.clients hnd
  have hfl : focuslastWM (unmanageWM wm w) = focusWM (unmanageWM wm w) lc := by
    unfold focuslastWM
    rw [h1, hl]
    simp only []
    rw [unmanageWM_monitors, hvis]
    simp
  refine ⟨h1, h2, ?_, ?_⟩
  · rw [hfl]
    rfl
  · rw [hfl]
    simpa [focusWM] using h2

/-- A visible tag-`t` client used by concrete witnesses. -/
def clW (w t : Nat) : Client :=
  { name := "", frame := rect0, win := w, pid := w, tags := t,
    isfloating := false, isfullscreen := 0 }

/-- A two-client state whose `lastsel` is the second client. -/
def wmC10 : WM :=
  { clients := [clW 1 1, clW 2 1], sel := some (clW 1 1),
    lastsel := some (clW 2 1), monitors := [monC1],
    g_mfact := ⟨11, 20⟩, g_nmaster := 1, seltags := false,
    tagset0 := 1, tagset1 := 1, sellay := 0, windowschanged := false }

/-- Witness for C10: removing the client behind `lastsel` from a
two-client registry. -/
theorem claimC10_unmanage_dangling_lastsel_witness :
    (unmanageWM wmC10 2).lastsel = wmC10.lastsel ∧
    2 ∉ ((unmanageWM wmC10 2).clients.map (fun c => c.win)) ∧
    (focuslastWM (unmanageWM wmC10 2)).sel = some (clW 2 1) ∧
    2 ∉ ((focuslastWM (unmanageWM wmC10 2)).clients.map (fun c => c.win)) :=
  claimC10_unmanage_dangling_lastsel wmC10 2 (clW 2 1) rfl rfl (by decide) (by decide)

/-! ### C9: focus traversal -/

theorem afterWin_split (s : Client) (pre post : List Client)
    (hpre : ∀ x ∈ pre, x.win ≠ s.win) :
    afterWin s.win (pre ++ s :: post) = post := by
  induction pre with
  | nil => simp [afterWin]
  | cons c cs ih =>
    have hc : c.win ≠ s.win := hpre c (by simp)
    simp only [List.cons_append]
    unfold afterWin
    rw [if_neg hc]
    exact ih (fun x hx => hpre x (by simp [hx]))

theorem beforeWin_split (s : Client) (pre post : List Client)
    (hpre : ∀ x ∈ pre, x.win ≠ s.win) :
    beforeWin s.win (pre ++ s :: post) = pre := by
  induction pre with
  | nil => simp [beforeWin]
  | cons c cs ih =>
    have hc : c.win ≠ s.win := hpre c (by simp)
    simp only [List.cons_append]
    unfold beforeWin
    rw [if_neg hc, ih (fun x hx => hpre x (by simp [hx]))]

theorem getLast?_append_or (a b : List Client) :
    (a ++ b).getLast? = (b.getLast?).or a.getLast? := by
  rcases b.eq_nil_or_concat with rfl | ⟨bs, x, rfl⟩
  · simp
  · rw [List.concat_eq_append, ← List.append_assoc]
    simp [List.getLast?_concat]

theorem mem_of_getLast?_eq_some {l : List Client} {c : Client}
    (h : l.getLast? = some c) : c ∈ l := by
  have hx : c ∈ l.getLast? := by rw [Option.mem_def, h]
  obtain ⟨hne, rfl⟩ := List.mem_getLast?_eq_getLast hx
  exact List.getLast_mem hne

/-- C9.  With the registry split around the selected client as
`pre ++ [sel] ++ post`, `focusnext` focuses the first visible client of
`post ++ pre` — the next visible client in insertion order, wrapping past
the end — and is a no-op when no other visible client exists; `focusprev`
symmetrically focuses the last visible client of `post ++ pre`. -/
theorem claimC9_focus_traversal (wm : WM) (s : Client) (pre post : List Client)
    (hs : wm.sel = some s)
    (hsplit : wm.clients = pre ++ s :: post)
    (hw : ∀ x ∈ pre ++ post, x.win ≠ s.win) :
    (focusnextWM wm = match (post ++ pre).find? (isvisible wm.monitors) with
       | some c => focusWM wm c
       | none => wm) ∧
    (focusprevWM wm = match ((post ++ pre).filter (isvisible wm.monitors)).getLast? with
       | some c => focusWM wm c
       | none => wm) := by
  have hpre : ∀ x ∈ pre, x.win ≠ s.win := fun x hx => hw x (by simp [hx])
  have hpost : ∀ x ∈ post, x.win ≠ s.win := fun x hx => hw x (by simp [hx])
  constructor
  · unfold focusnextWM
    rw [hs]
    simp only [hsplit, afterWin_split s pre post hpre, beforeWin_split s pre post hpre]
    rw [List.find?_append]
    cases hf : post.find? (isvisible wm.monitors) with
    | some c =>
      have hc : c ∈ post := List.mem_of_find?_eq_some hf
      simp [hpost c hc]
    | none =>
      simp only [Option.or]
      cases hg : pre.find? (isvisible wm.monitors) with
      | some c =>
        have hc : c ∈ pre := List.mem_of_find?_eq_some hg
        simp [hpre c hc]
      | none => rfl
  · unfold focusprevWM
    rw [hs]
    simp only [hsplit, afterWin_split s pre post hpre, beforeWin_split s pre post hpre]
    rw [List.filter_append, getLast?_append_or]
    cases hf : (pre.filter (isvisible wm.monitors)).getLast? with
    | some c =>
      have hc : c ∈ pre := List.mem_of_mem_filter (mem_of_getLast?_eq_some hf)
      simp [hpre c hc]
    | none =>
      simp only [Option.or]
      cases hg : (post.filter (isvisible wm.monitors)).getLast? with
      | some c =>
        have hc : c ∈ post := List.mem_of_mem_filter (mem_of_getLast?_eq_some hg)
        simp [hpost c hc]
      | none => rfl

/-- A three-client state selecting the middle client; the first client is
on an unviewed tag. -/
def wmC9 : WM :=
  { clients := [clW 1 2, clW 2 1, clW 3 1], sel := some (clW 2 1),
    lastsel := none, monitors := [monC1],
    g_mfact := ⟨11, 20⟩, g_nmaster := 1, seltags := false,
    tagset0 := 1, tagset1 := 1, sellay := 0, windowschanged := false }

/-- Witness for C9: three clients, the invisible one (tag 2 on a monitor
viewing tag 1) is skipped and the wrap lands on the visible third
client. -/
theorem claimC9_focus_traversal_witness :
    (focusnextWM wmC9 =
      match ([clW 3 1] ++ [clW 1 2]).find? (isvisible wmC9.monitors) with
        | some c => focusWM wmC9 c
        | none => wmC9) ∧
    (focusprevWM wmC9 =
      match (([clW 3 1] ++ [clW 1 2]).filter (isvisible wmC9.monitors)).getLast? with
        | some c => focusWM wmC9 c
        | none => wmC9) :=
  claimC9_focus_traversal wmC9 (clW 2 1) [clW 1 2] [clW 3 1] rfl rfl (by decide)

/-! ### C6: the tag/floating pipeline of `manage` -/

/-- The rule-table override stage: a matching rule rewrites the tags only
when its mask is non-zero, and the floating flag unconditionally. -/
def ruleOverride (st : Nat × Bool) (r : Rule) : Nat × Bool :=
  (if r.tags = 0 then st.1 else r.tags, r.isfloating)

/-- The persisted-snapshot override stage: a matching entry rewrites the
tags only when the saved mask is non-zero, and the floating flag
unconditionally. -/
def snapOverride (st : Nat × Bool) (e : SnapEntry) : Nat × Bool :=
  (if e.tags = 0 then st.1 else e.tags, e.floating)

/-- Modelled from the spec (section 4.5) as amended: the initial
`(tags, floating)` of a new client starts from the *process-global*
selected tagset (not the owning monitor's current view) paired with
non-floating, is then overridden by the first rule whose process-name
substring matches, and last by a matching persisted-snapshot entry. -/
def specInitPipeline (gtags : Nat) (app : Option String) (rules : List Rule)
    (snap : List SnapEntry) : Nat × Bool :=
  match app with
  | none => (gtags, false)
  | some a =>
    let s1 := match rules.find? (fun r => hasSub r.app.data a.data) with
      | some r => ruleOverride (gtags, false) r
      | none => (gtags, false)
    match restoreSnap a snap with
    | some e => snapOverride s1 e
    | none => s1

/-- The startup state of a single monitor after switching its view to
tag 2. -/
def wmC6 : WM := viewWM (initWM [monC1]) 2

/-- Counterexample to C6 as stated: after `view` switches the owning
monitor to tag 2, a newly managed client still defaults to tags 1 — the
source reads the process-global `tagset[seltags]` (frozen at 1), not the
owning monitor's currently selected tag. -/
theorem claimC6_counterexample :
    curtags (monAt wmC6.monitors 0) = 2 ∧
    ((manageWM configRules [] 7 42 rect0 "t" (some "Foo") wmC6).clients.head?.map
      (fun c => c.tags)) = some 1 ∧
    (1 : Nat) ≠ 2 := by
  refine ⟨by decide, by decide, by decide⟩

/-- C6 as amended: the `(tags, floating)` of the client created by
`manage` is exactly the pipeline default-then-rule-then-snapshot, with the
default taken from the process-global selected tagset; the new client is
prepended to the registry. -/
theorem claimC6_amended (rules : List Rule) (snap : List SnapEntry)
    (win pid : Nat) (f : Rect) (nm : String) (app : Option String) (wm : WM) :
    ((manageWM rules snap win pid f nm app wm).clients.head?.map
        (fun c => (c.tags, c.isfloating))) =
      some (specInitPipeline (globaltags wm) app rules snap) ∧
    (manageWM rules snap win pid f nm app wm).clients.tail = wm.clients := by
  have hcl : (manageWM rules snap win pid f nm app wm).clients =
      newClient rules snap win pid f nm app (globaltags wm) :: wm.clients := rfl
  rw [hcl]
  refine ⟨?_, rfl⟩
  simp only [List.head?_cons, Option.map_some]
  unfold newClient clientInitState specInitPipeline ruleOverride snapOverride restoreSnap
  cases app with
  | none => rfl
  | some a =>
    simp only []
    cases hr : rules.find? (fun r => hasSub r.app.data a.data) with
    | some r =>
      cases hs : snap.find? (fun e => e.app = a) with
      | some e =>
        by_cases he : e.tags = 0 <;> by_cases hrt : r.tags = 0 <;>
          simp [he, hrt]
      | none =>
        by_cases hrt : r.tags = 0 <;> simp [hrt]
    | none =>
      cases hs : snap.find? (fun e => e.app = a) with
      | some e => by_cases he : e.tags = 0 <;> simp [he]
      | none => rfl

/-! ### C7: persistence round-trip -/

theorem find?_cons_eq_ite {α : Type} (p : α → Bool) (x : α) (xs : List α) :
    (x :: xs).find? p = if p x then some x else xs.find? p := by
  by_cases h : p x
  · rw [List.find?_cons_of_pos _ h, if_pos h]
  · rw [List.find?_cons_of_neg _ h, if_neg h]

/-- Saving the registry and looking an app name up again returns the
`(tags, floating)` of the first registry client with that (non-empty)
name. -/
theorem restore_save_first (appOf : Nat → Option String) (a : String) (hne : a ≠ "")
    (cs : List Client) (c : Client)
    (hf : cs.find? (fun x => appOf x.pid == some a) = some c) :
    restoreSnap a (saveSnap appOf cs) = some ⟨a, c.tags, c.isfloating⟩ := by
  induction cs with
  | nil => simp at hf
  | cons x xs ih =>
    rw [find?_cons_eq_ite] at hf
    by_cases hx : (appOf x.pid == some a) = true
    · rw [if_pos hx] at hf
      have hxc : x = c := by simpa using hf
      subst hxc
      have hax : appOf x.pid = some a := by simpa using hx
      unfold saveSnap
      rw [List.filterMap_cons]
      simp only [hax]
      rw [if_neg hne]
      unfold restoreSnap
      rw [find?_cons_eq_ite, if_pos (by simp)]
    · rw [if_neg hx] at hf
      have hrec := ih hf
      unfold saveSnap
      rw [List.filterMap_cons]
      cases hax : appOf x.pid with
      | none => exact hrec
      | some b =>
        simp only []
        by_cases hb : b = ""
        · rw [if_pos hb]
          exact hrec
        · rw [if_neg hb]
          unfold restoreSnap
          have hba : ¬ ((⟨b, x.tags, x.isfloating⟩ : SnapEntry).app = a) := by
            intro hba
            apply hx
            rw [hax]
            simp only [] at hba
            rw [hba]
            simp
          rw [find?_cons_eq_ite, if_neg (by simpa using hba)]
          exact hrec

/-- C7.  Writing a client's `(tags, floating)` through `savestate` and
creating a new client with the same application identity reproduces the
same `(tags, floating)`: the snapshot entry wins over any rule, the saved
tags are non-zero (registry invariant) so they are restored, and the
floating flag is restored unconditionally.  The client must be the first
of its app name in registry order (the snapshot is keyed by app name). -/
theorem claimC7_persistence_roundtrip (appOf : Nat → Option String) (wm : WM)
    (c : Client) (a : String) (rules : List Rule) (win pid : Nat) (f : Rect) (nm : String)
    (hfind : wm.clients.find? (fun x => appOf x.pid == some a) = some c)
    (hne : a ≠ "")
    (htags : c.tags ≠ 0)
    (hpid : appOf pid = some a) :
    ((manageWM rules (saveSnap appOf wm.clients) win pid f nm (appOf pid) wm).clients.head?.map
        (fun x => (x.tags, x.isfloating))) = some (c.tags, c.isfloating) := by
  have hrs := restore_save_first appOf a hne wm.clients c hfind
  unfold restoreSnap at hrs
  have hcl : (manageWM rules (saveSnap appOf wm.clients) win pid f nm (appOf pid) wm).clients =
      newClient rules (saveSnap appOf wm.clients) win pid f nm (appOf pid) (globaltags wm) :: wm.clients := rfl
  rw [hcl]
  simp only [List.head?_cons, Option.map_some]
  unfold newClient clientInitState
  rw [hpid]
  simp only []
  rw [hrs]
  simp [htags]

/-- The process-name resolver of the C7 witness. -/
def appOfW : Nat → Option String := fun p => if p = 42 then some "Foo" else none

/-- The saved client of the C7 witness: pid 42, tags 3, floating. -/
def clC7 : Client :=
  { name := "", frame := rect0, win := 5, pid := 42, tags := 3,
    isfloating := true, isfullscreen := 0 }

/-- A one-client state for the C7 witness. -/
def wmC7 : WM :=
  { clients := [clC7], sel := some clC7, lastsel := none, monitors := [monC1],
    g_mfact := ⟨11, 20⟩, g_nmaster := 1, seltags := false,
    tagset0 := 1, tagset1 := 1, sellay := 0, windowschanged := false }

/-- Witness for C7: a `(tags = 3, floating = true)` client round-trips
through the snapshot onto a newly managed window of the same app. -/
theorem claimC7_persistence_roundtrip_witness :
    ((manageWM [] (saveSnap appOfW wmC7.clients) 9 42 rect0 "t" (appOfW 42) wmC7).clients.head?.map
        (fun x => (x.tags, x.isfloating))) = some (3, true) :=
  claimC7_persistence_roundtrip appOfW wmC7 clC7 "Foo" [] 9 42 rect0 "t"
    (by decide) (by decide) (by decide) (by decide)

/-! ### C3: the tags-never-empty invariant -/

def tagsOK (cs : List Client) : Bool := cs.all (fun c => c.tags != 0)

def WMInv (wm : WM) : Prop :=
  tagsOK wm.clients = true ∧ wm.tagset0 ≠ 0 ∧ wm.tagset1 ≠ 0

theorem tagsOK_map_of_tags_eq (f : Client → Client) (hf : ∀ c, (f c).tags = c.tags)
    (cs : List Client) : tagsOK (cs.map f) = tagsOK cs := by
  unfold tagsOK
  induction cs with
  | nil => rfl
  | cons c cs ih => simp only [List.map_cons, List.all_cons, ih, hf]

theorem placeTile_tagsOK (mons : List Monitor) (mtags nm : Nat) (gap : Int)
    (g : TileGeom) : ∀ (i : Nat) (cs : List Client),
    tagsOK (placeTile mons mtags nm gap g i cs) = tagsOK cs := by
  intro i cs
  induction cs generalizing i with
  | nil => rfl
  | cons c cs ih =>
    unfold placeTile
    have ih' : ∀ j, (placeTile mons mtags nm gap g j cs).all (fun c => c.tags != 0) =
        cs.all (fun c => c.tags != 0) := fun j => ih j
    split_ifs with h h2 <;> simp only [tagsOK, List.all_cons, ih']

theorem tileMon_tagsOK (mons : List Monitor) (gap : Int) (nm : Nat) (mfact : Q)
    (cs : List Client) (m : Monitor) :
    tagsOK (tileMon mons gap nm mfact cs m) = tagsOK cs := by
  simp only [tileMon]
  split_ifs with h
  · rfl
  · exact placeTile_tagsOK _ _ _ _ _ _ _

theorem monocleMon_tagsOK (mons : List Monitor) (gap : Int) (m : Monitor)
    (cs : List Client) : tagsOK (monocleMon mons gap m cs) = tagsOK cs := by
  refine tagsOK_map_of_tags_eq _ (fun c => ?_) cs
  dsimp only
  split_ifs <;> rfl

theorem foldl_tagsOK {β : Type} (f : List Client → β → List Client)
    (hf : ∀ cs b, tagsOK (f cs b) = tagsOK cs) :
    ∀ (bs : List β) (cs : List Client), tagsOK (bs.foldl f cs) = tagsOK cs := by
  intro bs
  induction bs with
  | nil => intro cs; rfl
  | cons b bs ih => intro cs; rw [List.foldl_cons, ih, hf]

theorem tileAll_tagsOK (wm : WM) : tagsOK (tileAll wm) = tagsOK wm.clients := by
  exact foldl_tagsOK _ (fun cs m => tileMon_tagsOK _ _ _ _ cs m) wm.monitors wm.clients

theorem monocleAll_tagsOK (wm : WM) : tagsOK (monocleAll wm) = tagsOK wm.clients := by
  exact foldl_tagsOK _ (fun cs m => monocleMon_tagsOK _ _ m cs) wm.monitors wm.clients

theorem applyLayout_tagsOK (wm : WM) :
    tagsOK (applyLayout wm).clients = tagsOK wm.clients := by
  unfold applyLayout
  split_ifs
  · exact tileAll_tagsOK wm
  · exact monocleAll_tagsOK wm
  · rfl

theorem arrangeWM_tagsOK (wm : WM) :
    tagsOK (arrangeWM wm).clients = tagsOK wm.clients := by
  rw [arrangeWM_clients]
  exact applyLayout_tagsOK wm

theorem arrangeWM_tagsets (wm : WM) :
    (arrangeWM wm).tagset0 = wm.tagset0 ∧ (arrangeWM wm).tagset1 = wm.tagset1 := by
  obtain ⟨cs, s, l, h⟩ := arrangeWM_shape wm
  rw [h]
  exact ⟨rfl, rfl⟩

theorem arrangeWM_WMInv (wm : WM) (h : WMInv wm) : WMInv (arrangeWM wm) := by
  obtain ⟨h1, h2, h3⟩ := h
  refine ⟨?_, ?_, ?_⟩
  · rw [arrangeWM_tagsOK]; exact h1
  · rw [(arrangeWM_tagsets wm).1]; exact h2
  · rw [(arrangeWM_tagsets wm).2]; exact h3

theorem focusWM_WMInv (wm : WM) (c : Client) (h : WMInv wm) : WMInv (focusWM wm c) := h


theorem clientInitState_fst_ne (gtags : Nat) (app : Option String)
    (rules : List Rule) (snap : List SnapEntry) (h : gtags ≠ 0) :
    (clientInitState gtags app rules snap).1 ≠ 0 := by
  unfold clientInitState
  cases app with
  | none => exact h
  | some a =>
    simp only []
    cases hr : rules.find? (fun r => hasSub r.app.data a.data) with
    | some r =>
      cases hs : snap.find? (fun e => e.app = a) with
      | some e =>
        by_cases he : e.tags ≠ 0 <;> by_cases hrt : r.tags ≠ 0 <;>
          simp [he, hrt] <;> first | exact he | exact h | skip
      | none =>
        by_cases hrt : r.tags ≠ 0 <;> simp [hrt] <;> first | exact hrt | exact h
    | none =>
      cases hs : snap.find? (fun e => e.app = a) with
      | some e => by_cases he : e.tags ≠ 0 <;> simp [he] <;> first | exact he | exact h
      | none => exact h

theorem globaltags_ne (wm : WM) (h : WMInv wm) : globaltags wm ≠ 0 := by
  unfold globaltags
  cases hs : wm.seltags
  · simp only [if_neg Bool.false_ne_true]
    exact h.2.1
  · simp only [if_pos rfl]
    exact h.2.2

theorem manageWM_WMInv (rules : List Rule) (snap : List SnapEntry) (win pid : Nat)
    (f : Rect) (nm : String) (app : Option String) (wm : WM) (h : WMInv wm) :
    WMInv (manageWM rules snap win pid f nm app wm) := by
  refine ⟨?_, h.2.1, h.2.2⟩
  have hcl : (manageWM rules snap win pid f nm app wm).clients =
      newClient rules snap win pid f nm app (globaltags wm) :: wm.clients := rfl
  rw [hcl]
  simp only [tagsOK, List.all_cons, Bool.and_eq_true]
  constructor
  · simp only [newClient, bne_iff_ne, ne_eq]
    exact clientInitState_fst_ne _ _ _ _ (globaltags_ne wm h)
  · exact h.1

theorem removeWin_tagsOK (w : Nat) (cs : List Client) (h : tagsOK cs = true) :
    tagsOK (removeWin w cs) = true := by
  induction cs with
  | nil => exact h
  | cons c cs ih =>
    simp only [tagsOK, List.all_cons, Bool.and_eq_true] at h
    unfold removeWin
    split_ifs with hc
    · exact h.2
    · simp only [tagsOK, List.all_cons, Bool.and_eq_true]
      exact ⟨h.1, ih h.2⟩

theorem unmanageWM_WMInv (wm : WM) (w : Nat) (h : WMInv wm) :
    WMInv (unmanageWM wm w) := by
  refine ⟨?_, ?_, ?_⟩
  · rw [unmanageWM_clients]
    exact removeWin_tagsOK w wm.clients h.1
  · have : (unmanageWM wm w).tagset0 = wm.tagset0 := by
      simp only [unmanageWM]
      split
      · split_ifs with hww
        · split
          · simp [focusWM]
          · rfl
        · rfl
      · rfl
    rw [this]; exact h.2.1
  · have : (unmanageWM wm w).tagset1 = wm.tagset1 := by
      simp only [unmanageWM]
      split
      · split_ifs with hww
        · split
          · simp [focusWM]
          · rfl
        · rfl
      · rfl
    rw [this]; exact h.2.2

theorem setTagsWin_tagsOK (w t : Nat) (ht : t ≠ 0) (cs : List Client)
    (h : tagsOK cs = true) : tagsOK (setTagsWin w t cs) = true := by
  unfold setTagsWin tagsOK
  rw [List.all_eq_true]
  intro x hx
  obtain ⟨c, hc, rfl⟩ := List.mem_map.1 hx
  split_ifs with hcw
  · simpa using ht
  · simp only [tagsOK, List.all_eq_true] at h
    exact h c hc

theorem tagWM_WMInv (wm : WM) (ui : Nat) (h : WMInv wm) : WMInv (tagWM wm ui) := by
  simp only [tagWM]
  split
  · exact h
  · rename_i s hs
    split_ifs with hm
    · have h1 : WMInv (arrangeWM
        { wm with clients := setTagsWin s.win (ui &&& TAGMASK) wm.clients,
                  sel := some { s with tags := ui &&& TAGMASK },
                  lastsel := syncTags s.win (ui &&& TAGMASK) wm.lastsel,
                  windowschanged := true }) :=
        arrangeWM_WMInv _ ⟨setTagsWin_tagsOK _ _ hm wm.clients h.1, h.2.1, h.2.2⟩
      split
      · exact focusWM_WMInv _ _ h1
      · exact h1
    · exact h


theorem setFloatWin_tagsOK (w : Nat) (fl : Bool) (cs : List Client) :
    tagsOK (setFloatWin w fl cs) = tagsOK cs := by
  refine tagsOK_map_of_tags_eq _ (fun c => ?_) cs
  dsimp only
  split_ifs <;> rfl

theorem togglefloatWM_WMInv (wm : WM) (h : WMInv wm) : WMInv (togglefloatWM wm) := by
  simp only [togglefloatWM]
  split
  · exact h
  · apply arrangeWM_WMInv
    refine ⟨?_, h.2.1, h.2.2⟩
    rw [setFloatWin_tagsOK]
    exact h.1

theorem viewFocus_WMInv (mt : Nat) (wm1 : WM) (h : WMInv wm1) :
    WMInv (match wm1.clients.find? (fun c =>
        isvisible wm1.monitors c && ((c.tags &&& mt) != 0)) with
      | some c => focusWM wm1 c
      | none => wm1) := by
  split
  · exact focusWM_WMInv _ _ h
  · exact h

theorem viewWM_WMInv (wm : WM) (ui : Nat) (h : WMInv wm) : WMInv (viewWM wm ui) := by
  simp only [viewWM]
  split_ifs with he hc
  · exact h
  · exact h
  · exact viewFocus_WMInv _ _ (arrangeWM_WMInv _ ⟨h.1, h.2.1, h.2.2⟩)

theorem toggleviewWM_WMInv (wm : WM) (ui : Nat) (h : WMInv wm) :
    WMInv (toggleviewWM wm ui) := by
  simp only [toggleviewWM]
  split_ifs with he hc
  · exact h
  · exact arrangeWM_WMInv _ ⟨h.1, h.2.1, h.2.2⟩
  · exact h

theorem setmfactWM_WMInv (wm : WM) (d : Q) (h : WMInv wm) : WMInv (setmfactWM wm d) := by
  simp only [setmfactWM]
  split_ifs
  · exact h
  · exact arrangeWM_WMInv _ ⟨h.1, h.2.1, h.2.2⟩

theorem incnmasterWM_WMInv (wm : WM) (d : Int) (h : WMInv wm) :
    WMInv (incnmasterWM wm d) :=
  arrangeWM_WMInv _ ⟨h.1, h.2.1, h.2.2⟩

theorem setlayoutWM_WMInv (wm : WM) (i : Int) (h : WMInv wm) :
    WMInv (setlayoutWM wm i) := by
  simp only [setlayoutWM]
  split_ifs
  · exact arrangeWM_WMInv _ ⟨h.1, h.2.1, h.2.2⟩
  · exact arrangeWM_WMInv _ ⟨h.1, h.2.1, h.2.2⟩

theorem cyclelayoutWM_WMInv (wm : WM) (h : WMInv wm) : WMInv (cyclelayoutWM wm) :=
  arrangeWM_WMInv _ ⟨h.1, h.2.1, h.2.2⟩

theorem focusnextWM_WMInv (wm : WM) (h : WMInv wm) : WMInv (focusnextWM wm) := by
  simp only [focusnextWM]
  split
  · exact h
  · split
    · split_ifs
      · exact focusWM_WMInv _ _ h
      · exact h
    · exact h

theorem focusprevWM_WMInv (wm : WM) (h : WMInv wm) : WMInv (focusprevWM wm) := by
  simp only [focusprevWM]
  split
  · exact h
  · split
    · split_ifs
      · exact focusWM_WMInv _ _ h
      · exact h
    · exact h

theorem focuslastWM_WMInv (wm : WM) (h : WMInv wm) : WMInv (focuslastWM wm) := by
  simp only [focuslastWM]
  split
  · split_ifs
    · exact focusWM_WMInv _ _ h
    · exact h
  · exact h


theorem markFirstMatch_tagsOK (p : Client → Bool) (cs : List Client) :
    tagsOK (markFirstMatch p cs) = tagsOK cs := by
  induction cs with
  | nil => rfl
  | cons c cs ih =>
    have ih' : (markFirstMatch p cs).all (fun c => c.tags != 0) =
        cs.all (fun c => c.tags != 0) := ih
    unfold markFirstMatch
    split_ifs with hp
    · simp only [tagsOK, List.all_cons]
    · simp only [tagsOK, List.all_cons, ih']

theorem markStale_WMInv (wm : WM) (h : WMInv wm) : WMInv (markStale wm) := by
  refine ⟨?_, h.2.1, h.2.2⟩
  have hm : tagsOK (wm.clients.map (fun c => { c with isfullscreen := -1 })) =
      tagsOK wm.clients :=
    tagsOK_map_of_tags_eq (fun c => { c with isfullscreen := -1 }) (fun c => rfl) wm.clients
  have : (markStale wm).clients = wm.clients.map (fun c => { c with isfullscreen := -1 }) := rfl
  rw [this, hm]
  exact h.1

theorem stepWin_WMInv (e : Env) (wm : WM) (wp : Nat × Nat) (h : WMInv wm) :
    WMInv (stepWin e wm wp) := by
  simp only [stepWin]
  split_ifs with hm
  · refine ⟨?_, h.2.1, h.2.2⟩
    rw [show ({ wm with clients := markFirstMatch (matchPred e wp.1 wp.2) wm.clients } : WM).clients
        = markFirstMatch (matchPred e wp.1 wp.2) wm.clients from rfl]
    rw [markFirstMatch_tagsOK]
    exact h.1
  · exact manageWM_WMInv _ _ _ _ _ _ _ wm h

theorem foldl_stepWin_WMInv (e : Env) (L : List (Nat × Nat)) :
    ∀ (wm : WM), WMInv wm → WMInv (L.foldl (stepWin e) wm) := by
  induction L with
  | nil => exact fun wm h => h
  | cons wp L ih =>
    intro wm h
    rw [List.foldl_cons]
    exact ih _ (stepWin_WMInv e wm wp h)

theorem setActiveWin_tagsOK (w : Nat) (cs : List Client) :
    tagsOK (setActiveWin w cs) = tagsOK cs := by
  refine tagsOK_map_of_tags_eq _ (fun c => ?_) cs
  dsimp only
  split_ifs <;> rfl

theorem sweep_WMInv (snap : List Client) :
    ∀ (wm : WM), WMInv wm → WMInv (sweep snap wm) := by
  induction snap with
  | nil => exact fun wm h => h
  | cons c rest ih =>
    intro wm h
    unfold sweep
    split_ifs with hc
    · exact ih _ (unmanageWM_WMInv wm c.win h)
    · refine ih _ ⟨?_, h.2.1, h.2.2⟩
      rw [show ({ wm with clients := setActiveWin c.win wm.clients } : WM).clients
          = setActiveWin c.win wm.clients from rfl]
      rw [setActiveWin_tagsOK]
      exact h.1

theorem updateclientsWM_WMInv (e : Env) (L : List (Nat × Nat)) (wm : WM)
    (h : WMInv wm) : WMInv (updateclientsWM e L wm) := by
  simp only [updateclientsWM]
  exact sweep_WMInv _ _ (foldl_stepWin_WMInv e L _ (markStale_WMInv wm h))

theorem scanWM_WMInv (e : Env) (L : List (Nat × Nat)) (wm : WM) (h : WMInv wm) :
    WMInv (scanWM e L wm) := by
  simp only [scanWM]
  split_ifs with hc
  · have h1 := arrangeWM_WMInv _ (updateclientsWM_WMInv e L wm h)
    exact ⟨h1.1, h1.2.1, h1.2.2⟩
  · exact updateclientsWM_WMInv e L wm h

theorem execOp_WMInv (o : Op) (wm : WM) (h : WMInv wm) : WMInv (execOp o wm) := by
  cases o with
  | manage win pid f nm app snap => exact manageWM_WMInv _ _ _ _ _ _ _ wm h
  | reconcile e L => exact scanWM_WMInv e L wm h
  | remove w => exact unmanageWM_WMInv wm w h
  | movetag ui => exact tagWM_WMInv wm ui h
  | togglefloat => exact togglefloatWM_WMInv wm h
  | view ui => exact viewWM_WMInv wm ui h
  | toggleview ui => exact toggleviewWM_WMInv wm ui h
  | setmfact d => exact setmfactWM_WMInv wm d h
  | incnmaster d => exact incnmasterWM_WMInv wm d h
  | setlayout i => exact setlayoutWM_WMInv wm i h
  | cyclelayout => exact cyclelayoutWM_WMInv wm h
  | focusnext => exact focusnextWM_WMInv wm h
  | focusprev => exact focusprevWM_WMInv wm h
  | focuslast => exact focuslastWM_WMInv wm h

theorem reachable_WMInv (s : WM) (h : Reachable s) : WMInv s := by
  induction h with
  | start mons => exact ⟨rfl, one_ne_zero, one_ne_zero⟩
  | step o s hs ih => exact execOp_WMInv o s ih

/-- C3.  In every state reachable from startup by any sequence of the
provided operations (manage with the configured rule table and any
persisted snapshot, tag, toggleFloating, view, toggleView, reconciliation,
removal, the layout and focus commands), every client in the registry has
a non-empty tags bitmask. -/
theorem claimC3_tags_never_empty (s : WM) (h : Reachable s) :
    s.clients.all (fun c => c.tags != 0) = true :=
  (reachable_WMInv s h).1

/-- Witness for C3: the state after managing one window from startup. -/
theorem claimC3_tags_never_empty_witness :
    (execOp (Op.manage 1 2 rect0 "t" none []) (initWM [monC1])).clients.all
      (fun c => c.tags != 0) = true :=
  claimC3_tags_never_empty _ (Reachable.step _ _ (Reachable.start [monC1]))

/-! ### C8 groundwork: value equality of frames -/

theorem qeqb_refl (q : Q) : qeqb q q = true := by
  simp [qeqb]

theorem qeqb_symm {a b : Q} (h : qeqb a b = true) : qeqb b a = true := by
  simp only [qeqb, decide_eq_true_eq] at *
  omega

theorem qeqb_trans {a b c : Q} (hb : (b.den : Int) ≠ 0)
    (h1 : qeqb a b = true) (h2 : qeqb b c = true) : qeqb a c = true := by
  simp only [qeqb, decide_eq_true_eq] at *
  have h5 : (a.num * c.den) * b.den = (c.num * a.den) * b.den := by
    calc (a.num * c.den) * b.den = a.num * b.den * c.den := by ring
      _ = b.num * a.den * c.den := by rw [h1]
      _ = b.num * c.den * a.den := by ring
      _ = c.num * b.den * a.den := by rw [h2]
      _ = (c.num * a.den) * b.den := by ring
  exact mul_right_cancel₀ hb h5

def rectOK (r : Rect) : Prop :=
  r.x.den ≠ 0 ∧ r.y.den ≠ 0 ∧ r.w.den ≠ 0 ∧ r.h.den ≠ 0

theorem rectEqb_refl (r : Rect) : rectEqb r r = true := by
  simp [rectEqb, qeqb_refl]

theorem rectEqb_symm {a b : Rect} (h : rectEqb a b = true) : rectEqb b a = true := by
  simp only [rectEqb, Bool.and_eq_true] at *
  exact ⟨⟨⟨qeqb_symm h.1.1.1, qeqb_symm h.1.1.2⟩, qeqb_symm h.1.2⟩, qeqb_symm h.2⟩

theorem rectEqb_trans {a b c : Rect} (hb : rectOK b)
    (h1 : rectEqb a b = true) (h2 : rectEqb b c = true) : rectEqb a c = true := by
  simp only [rectEqb, Bool.and_eq_true] at *
  obtain ⟨hx, hy, hw, hh⟩ := hb
  have hx' : ((b.x.den : Nat) : Int) ≠ 0 := by exact_mod_cast hx
  have hy' : ((b.y.den : Nat) : Int) ≠ 0 := by exact_mod_cast hy
  have hw' : ((b.w.den : Nat) : Int) ≠ 0 := by exact_mod_cast hw
  have hh' : ((b.h.den : Nat) : Int) ≠ 0 := by exact_mod_cast hh
  exact ⟨⟨⟨qeqb_trans hx' h1.1.1.1 h2.1.1.1, qeqb_trans hy' h1.1.1.2 h2.1.1.2⟩,
    qeqb_trans hw' h1.1.2 h2.1.2⟩, qeqb_trans hh' h1.2 h2.2⟩

/-- Well-formed live geometry: every live frame has positive denominators
(the embedding of real doubles always does). -/
def frOK (e : Env) : Prop := ∀ w, rectOK (e.fr w)

theorem matchPred_flag (e : Env) (w p : Nat) (c : Client) (x : Int) :
    matchPred e w p { c with isfullscreen := x } = matchPred e w p c := rfl

/-- If a client matches two live windows, the two windows agree on every
client (their owning pid and live geometry coincide in value). -/
theorem matchPred_congr (e : Env) (he : frOK e) (wp wq : Nat × Nat) (c d : Client)
    (h1 : matchPred e wp.1 wp.2 c = true) (h2 : matchPred e wq.1 wq.2 c = true)
    (h3 : matchPred e wp.1 wp.2 d = true) : matchPred e wq.1 wq.2 d = true := by
  simp only [matchPred, Bool.and_eq_true, beq_iff_eq] at *
  refine ⟨by rw [h3.1, ← h1.1, h2.1], ?_⟩
  have ha : rectEqb (e.fr wq.1) (e.fr wp.1) = true :=
    rectEqb_trans (he c.win) h2.2 (rectEqb_symm h1.2)
  exact rectEqb_trans (he wp.1) ha h3.2


/-! ### C8 groundwork: `markFirstMatch` -/

theorem markFirstMatch_split (p : Client → Bool) (cs : List Client)
    (h : cs.any p = true) :
    ∃ pre m post, cs = pre ++ m :: post ∧ (∀ d ∈ pre, p d = false) ∧ p m = true ∧
      markFirstMatch p cs = pre ++ { m with isfullscreen := 0 } :: post := by
  induction cs with
  | nil => simp at h
  | cons c cs ih =>
    by_cases hc : p c = true
    · refine ⟨[], c, cs, rfl, by simp, hc, ?_⟩
      unfold markFirstMatch
      rw [if_pos hc]
      rfl
    · have h' : cs.any p = true := by
        simp only [List.any_cons] at h
        rcases Bool.or_eq_true_iff.1 h with h | h
        · exact absurd h hc
        · exact h
      obtain ⟨pre, m, post, h1, h2, h3, h4⟩ := ih h'
      refine ⟨c :: pre, m, post, by rw [h1]; rfl, ?_, h3, ?_⟩
      · intro d hd
        rcases List.mem_cons.1 hd with rfl | hd
        · exact Bool.not_eq_true _ ▸ (Bool.eq_false_iff.2 (fun ha => hc ha))
        · exact h2 d hd
      · unfold markFirstMatch
        rw [if_neg hc, h4]
        rfl

theorem markFirstMatch_mem_orig (p : Client → Bool) (cs : List Client) :
    ∀ c' ∈ markFirstMatch p cs, ∃ c ∈ cs,
      c' = c ∨ c' = { c with isfullscreen := 0 } := by
  induction cs with
  | nil => intro c' h; simp [markFirstMatch] at h
  | cons c cs ih =>
    intro c' h
    unfold markFirstMatch at h
    split_ifs at h with hc
    · rcases List.mem_cons.1 h with rfl | hmem
      · exact ⟨c, by simp, Or.inr rfl⟩
      · exact ⟨c', List.mem_cons_of_mem _ hmem, Or.inl rfl⟩
    · rcases List.mem_cons.1 h with rfl | hmem
      · exact ⟨c', by simp, Or.inl rfl⟩
      · obtain ⟨d, hd, ho⟩ := ih c' hmem
        exact ⟨d, List.mem_cons_of_mem _ hd, ho⟩

theorem markFirstMatch_mem_active (p : Client → Bool) (cs : List Client)
    (c : Client) (hc : c.isfullscreen = 0) (h : c ∈ cs) :
    c ∈ markFirstMatch p cs := by
  induction cs with
  | nil => simp at h
  | cons d ds ih =>
    unfold markFirstMatch
    split_ifs with hd
    · rcases List.mem_cons.1 h with rfl | hm
      · have : ({ c with isfullscreen := 0 } : Client) = c := by
          cases c
          simp_all
        rw [this]
        exact List.mem_cons_self _ _
      · exact List.mem_cons_of_mem _ hm
    · rcases List.mem_cons.1 h with rfl | hm
      · exact List.mem_cons_self _ _
      · exact List.mem_cons_of_mem _ (ih hm)

theorem markFirstMatch_wins (p : Client → Bool) (cs : List Client) :
    (markFirstMatch p cs).map (fun c => c.win) = cs.map (fun c => c.win) := by
  induction cs with
  | nil => rfl
  | cons c cs ih =>
    unfold markFirstMatch
    split_ifs with hc
    · rfl
    · simp only [List.map_cons, ih]

theorem find?_markFirstMatch (p p' : Client → Bool) (c : Client) (cs : List Client)
    (hp0 : ∀ d, p { d with isfullscreen := 0 } = p d)
    (hc : c.isfullscreen = 0)
    (h : cs.find? p = some c) :
    (markFirstMatch p' cs).find? p = some c := by
  induction cs with
  | nil => simp at h
  | cons d ds ih =>
    rw [find?_cons_eq_ite] at h
    unfold markFirstMatch
    split_ifs with hd
    · rw [find?_cons_eq_ite]
      by_cases hpd : p d = true
      · rw [if_pos hpd] at h
        have : d = c := by simpa using h
        subst this
        rw [if_pos (by rw [hp0]; exact hpd)]
        have : ({ d with isfullscreen := 0 } : Client) = d := by
          cases d
          simp_all
        rw [this]
      · rw [if_neg hpd] at h
        rw [if_neg (by rw [hp0]; exact hpd)]
        exact h
    · rw [find?_cons_eq_ite]
      by_cases hpd : p d = true
      · rw [if_pos hpd] at h
        rw [if_pos hpd]
        exact h
      · rw [if_neg hpd] at h
        rw [if_neg hpd]
        exact ih h

theorem find?_of_prefix_none (p : Client → Bool) (pre : List Client) (m : Client)
    (post : List Client) (hpre : ∀ d ∈ pre, p d = false) (hm : p m = true) :
    (pre ++ m :: post).find? p = some m := by
  induction pre with
  | nil => simp [find?_cons_eq_ite, hm]
  | cons d ds ih =>
    rw [List.cons_append, find?_cons_eq_ite, if_neg (by simp [hpre d (by simp)])]
    exact ih (fun x hx => hpre x (by simp [hx]))

theorem countP_le_one (p : Client → Bool) (cs : List Client)
    (hnd : (cs.map (fun c => c.win)).Nodup)
    (hu : ∀ c1 ∈ cs, ∀ c2 ∈ cs, p c1 = true → p c2 = true → c1 = c2) :
    cs.countP p ≤ 1 := by
  induction cs with
  | nil => simp
  | cons c cs ih =>
    simp only [List.map_cons, List.nodup_cons] at hnd
    rw [List.countP_cons]
    by_cases hc : p c = true
    · have hz : cs.countP p = 0 := by
        rw [List.countP_eq_zero]
        intro d hd hpd
        have : d = c := hu d (List.mem_cons_of_mem _ hd) c (by simp) hpd hc
        subst this
        exact hnd.1 (List.mem_map.2 ⟨d, hd, rfl⟩)
      simp [hz, hc]
    · have : (if p c then 1 else 0) = 0 := by simp [hc]
      rw [this]
      have := ih hnd.2 (fun c1 h1 c2 h2 hp1 hp2 =>
        hu c1 (List.mem_cons_of_mem _ h1) c2 (List.mem_cons_of_mem _ h2) hp1 hp2)
      omega


/-! ### C8: the pass-1 invariant -/

/-- The client-list effect of one `stepWin`, given the (constant)
process-global tagset. -/
def stepC (e : Env) (gt : Nat) (cs : List Client) (wp : Nat × Nat) : List Client :=
  if cs.any (matchPred e wp.1 wp.2) then markFirstMatch (matchPred e wp.1 wp.2) cs
  else newClient e.rules e.snap wp.1 wp.2 (e.fr wp.1) (e.nameOf wp.1) (e.appOf wp.2) gt :: cs

theorem stepWin_clients (e : Env) (wm : WM) (wp : Nat × Nat) :
    (stepWin e wm wp).clients = stepC e (globaltags wm) wm.clients wp := by
  simp only [stepWin, stepC]
  split_ifs with h
  · rfl
  · rfl

theorem stepWin_globals (e : Env) (wm : WM) (wp : Nat × Nat) :
    (stepWin e wm wp).seltags = wm.seltags ∧ (stepWin e wm wp).tagset0 = wm.tagset0 ∧
    (stepWin e wm wp).tagset1 = wm.tagset1 := by
  simp only [stepWin]
  split_ifs with h
  · exact ⟨rfl, rfl, rfl⟩
  · exact ⟨rfl, rfl, rfl⟩

theorem globaltags_stepWin (e : Env) (wm : WM) (wp : Nat × Nat) :
    globaltags (stepWin e wm wp) = globaltags wm := by
  obtain ⟨h1, h2, h3⟩ := stepWin_globals e wm wp
  unfold globaltags
  rw [h1, h2, h3]

theorem foldl_stepWin_clients (e : Env) (L : List (Nat × Nat)) : ∀ (wm : WM),
    (L.foldl (stepWin e) wm).clients = L.foldl (stepC e (globaltags wm)) wm.clients := by
  induction L with
  | nil => intro wm; rfl
  | cons wp L ih =>
    intro wm
    rw [List.foldl_cons, List.foldl_cons, ih (stepWin e wm wp),
      globaltags_stepWin, stepWin_clients]

/-- The invariant maintained by the reconciler's marking pass over the
registry: flags are the two markers only, window handles are unique and
pid-consistent with the enumeration, every live-marked client is matched
by some enumerated window and is the *first* match of every enumerated
window it matches, and every processed window has a live-marked match. -/
structure P1Inv (e : Env) (L P : List (Nat × Nat)) (cur : List Client) : Prop where
  flags : ∀ c ∈ cur, c.isfullscreen = -1 ∨ c.isfullscreen = 0
  nodup : (cur.map (fun c => c.win)).Nodup
  pidc : ∀ wp ∈ L, ∀ c ∈ cur, c.win = wp.1 → c.pid = wp.2
  actOrig : ∀ c ∈ cur, c.isfullscreen = 0 → ∃ wp ∈ L, matchPred e wp.1 wp.2 c = true
  firstM : ∀ c ∈ cur, c.isfullscreen = 0 → ∀ wp ∈ L, matchPred e wp.1 wp.2 c = true →
    cur.find? (matchPred e wp.1 wp.2) = some c
  covered : ∀ wp ∈ P, ∃ c ∈ cur, c.isfullscreen = 0 ∧ matchPred e wp.1 wp.2 c = true

theorem newClient_core (rules : List Rule) (snap : List SnapEntry) (win pid : Nat)
    (f : Rect) (nm : String) (app : Option String) (gt : Nat) :
    (newClient rules snap win pid f nm app gt).win = win ∧
    (newClient rules snap win pid f nm app gt).pid = pid ∧
    (newClient rules snap win pid f nm app gt).isfullscreen = 0 :=
  ⟨rfl, rfl, rfl⟩

theorem matchPred_newClient (e : Env) (wp : Nat × Nat) (gt : Nat) :
    matchPred e wp.1 wp.2
      (newClient e.rules e.snap wp.1 wp.2 (e.fr wp.1) (e.nameOf wp.1) (e.appOf wp.2) gt) = true := by
  simp [matchPred, newClient, rectEqb_refl]


theorem stepC_P1Inv (e : Env) (he : frOK e) (L P : List (Nat × Nat))
    (hLc : ∀ wp ∈ L, ∀ wq ∈ L, wp.1 = wq.1 → wp.2 = wq.2)
    (cur : List Client) (gt : Nat) (wp : Nat × Nat) (hwp : wp ∈ L)
    (hinv : P1Inv e L P cur) :
    P1Inv e L (P ++ [wp]) (stepC e gt cur wp) := by
  unfold stepC
  split_ifs with hany
  · obtain ⟨pre, m, post, hcur, hpre, hpm, hmark⟩ :=
      markFirstMatch_split (matchPred e wp.1 wp.2) cur hany
    have hpm0 : matchPred e wp.1 wp.2 { m with isfullscreen := 0 } = true := by
      rw [matchPred_flag]; exact hpm
    have hmemm0 : ({ m with isfullscreen := 0 } : Client) ∈
        markFirstMatch (matchPred e wp.1 wp.2) cur := by
      rw [hmark]; exact List.mem_append_right _ (List.mem_cons_self _ _)
    refine ⟨?_, ?_, ?_, ?_, ?_, ?_⟩
    · intro c hc
      obtain ⟨d, hd, hor⟩ := markFirstMatch_mem_orig _ cur c hc
      rcases hor with h | h
      · rw [h]; exact hinv.flags d hd
      · rw [h]; exact Or.inr rfl
    · rw [markFirstMatch_wins]; exact hinv.nodup
    · intro wq hwq c hc hcw
      obtain ⟨d, hd, hor⟩ := markFirstMatch_mem_orig _ cur c hc
      rcases hor with h | h
      · rw [h] at hcw ⊢
        exact hinv.pidc wq hwq d hd hcw
      · rw [h] at hcw ⊢
        exact hinv.pidc wq hwq d hd hcw
    · intro c hc hfl
      rw [hmark] at hc
      rcases List.mem_append.1 hc with h | h
      · have : c ∈ cur := by rw [hcur]; exact List.mem_append_left _ h
        exact hinv.actOrig c this hfl
      · rcases List.mem_cons.1 h with rfl | h
        · exact ⟨wp, hwp, hpm0⟩
        · have : c ∈ cur := by
            rw [hcur]; exact List.mem_append_right _ (List.mem_cons_of_mem _ h)
          exact hinv.actOrig c this hfl
    · intro c hc hfl wq hwq hq
      rw [hmark] at hc
      rcases List.mem_append.1 hc with h | h
      · have hmem : c ∈ cur := by rw [hcur]; exact List.mem_append_left _ h
        exact find?_markFirstMatch _ _ c cur (fun d => matchPred_flag e wq.1 wq.2 d 0)
          hfl (hinv.firstM c hmem hfl wq hwq hq)
      · rcases List.mem_cons.1 h with rfl | h
        · rw [hmark]
          refine find?_of_prefix_none _ pre _ post ?_ hq
          intro d hd
          by_contra hqd
          have hqd' : matchPred e wq.1 wq.2 d = true := by
            cases hx : matchPred e wq.1 wq.2 d
            · exact absurd hx hqd
            · rfl
          have : matchPred e wp.1 wp.2 d = true :=
            matchPred_congr e he wq wp _ d hq hpm0 hqd'
          rw [hpre d hd] at this
          exact Bool.false_ne_true this
        · have hmem : c ∈ cur := by
            rw [hcur]; exact List.mem_append_right _ (List.mem_cons_of_mem _ h)
          exact find?_markFirstMatch _ _ c cur (fun d => matchPred_flag e wq.1 wq.2 d 0)
            hfl (hinv.firstM c hmem hfl wq hwq hq)
    · intro wq hwq
      rcases List.mem_append.1 hwq with h | h
      · obtain ⟨c, hc, hcfl, hcp⟩ := hinv.covered wq h
        exact ⟨c, markFirstMatch_mem_active _ cur c hcfl hc, hcfl, hcp⟩
      · have : wq = wp := by simpa using h
        subst this
        exact ⟨{ m with isfullscreen := 0 }, hmemm0, rfl, hpm0⟩
  · have hno : ∀ d ∈ cur, matchPred e wp.1 wp.2 d = false := by
      intro d hd
      have hfalse : cur.any (matchPred e wp.1 wp.2) = false :=
        Bool.eq_false_iff.2 hany
      have := List.any_eq_false.1 hfalse d hd
      cases hx : matchPred e wp.1 wp.2 d
      · rfl
      · exact absurd hx this
    have hself := matchPred_newClient e wp gt
    refine ⟨?_, ?_, ?_, ?_, ?_, ?_⟩
    · intro c hc
      rcases List.mem_cons.1 hc with rfl | h
      · exact Or.inr rfl
      · exact hinv.flags c h
    · rw [List.map_cons]
      refine List.nodup_cons.2 ⟨?_, hinv.nodup⟩
      intro hmem
      obtain ⟨c, hc, hcw⟩ := List.mem_map.1 hmem
      have hpid : c.pid = wp.2 := hinv.pidc wp hwp c hc hcw
      have : matchPred e wp.1 wp.2 c = true := by
        simp only [matchPred, hpid, beq_self_eq_true, Bool.true_and]
        have : c.win = wp.1 := hcw
        rw [this]
        exact rectEqb_refl _
      rw [hno c hc] at this
      exact Bool.false_ne_true this
    · intro wq hwq c hc hcw
      rcases List.mem_cons.1 hc with rfl | h
      · have h1 : wp.1 = wq.1 := hcw
        have := hLc wp hwp wq hwq h1
        exact this
      · exact hinv.pidc wq hwq c h hcw
    · intro c hc hfl
      rcases List.mem_cons.1 hc with rfl | h
      · exact ⟨wp, hwp, hself⟩
      · exact hinv.actOrig c h hfl
    · intro c hc hfl wq hwq hq
      rcases List.mem_cons.1 hc with rfl | h
      · rw [find?_cons_eq_ite, if_pos hq]
      · have hqn : matchPred e wq.1 wq.2
            (newClient e.rules e.snap wp.1 wp.2 (e.fr wp.1) (e.nameOf wp.1) (e.appOf wp.2) gt) = false := by
          by_contra hqn
          have hqn' : matchPred e wq.1 wq.2
              (newClient e.rules e.snap wp.1 wp.2 (e.fr wp.1) (e.nameOf wp.1) (e.appOf wp.2) gt) = true := by
            cases hx : matchPred e wq.1 wq.2
                (newClient e.rules e.snap wp.1 wp.2 (e.fr wp.1) (e.nameOf wp.1) (e.appOf wp.2) gt)
            · exact absurd hx hqn
            · rfl
          have : matchPred e wp.1 wp.2 c = true :=
            matchPred_congr e he wq wp _ c hqn' hself hq
          rw [hno c h] at this
          exact Bool.false_ne_true this
        rw [find?_cons_eq_ite, if_neg (by rw [hqn]; exact Bool.false_ne_true)]
        exact hinv.firstM c h hfl wq hwq hq
    · intro wq hwq
      rcases List.mem_append.1 hwq with h | h
      · obtain ⟨c, hc, hcfl, hcp⟩ := hinv.covered wq h
        exact ⟨c, List.mem_cons_of_mem _ hc, hcfl, hcp⟩
      · have : wq = wp := by simpa using h
        subst this
        exact ⟨_, List.mem_cons_self _ _, rfl, hself⟩


theorem foldl_stepC_P1Inv (e : Env) (he : frOK e) (L : List (Nat × Nat))
    (hLc : ∀ wp ∈ L, ∀ wq ∈ L, wp.1 = wq.1 → wp.2 = wq.2) (gt : Nat) :
    ∀ (L' : List (Nat × Nat)) (P : List (Nat × Nat)) (cur : List Client),
    (∀ wp ∈ L', wp ∈ L) → P1Inv e L P cur →
    P1Inv e L (P ++ L') (L'.foldl (stepC e gt) cur) := by
  intro L'
  induction L' with
  | nil => intro P cur _ h; simpa using h
  | cons wp L' ih =>
    intro P cur hsub h
    rw [List.foldl_cons]
    have h1 := stepC_P1Inv e he L P hLc cur gt wp (hsub wp (by simp)) h
    have h2 := ih (P ++ [wp]) (stepC e gt cur wp)
      (fun wq hq => hsub wq (List.mem_cons_of_mem _ hq)) h1
    rwa [List.append_assoc, List.singleton_append] at h2

theorem markStale_P1Inv (e : Env) (L : List (Nat × Nat)) (cs : List Client)
    (hnd : (cs.map (fun c => c.win)).Nodup)
    (hpidc : ∀ wp ∈ L, ∀ c ∈ cs, c.win = wp.1 → c.pid = wp.2) :
    P1Inv e L [] (cs.map (fun c => { c with isfullscreen := -1 })) := by
  refine ⟨?_, ?_, ?_, ?_, ?_, ?_⟩
  · intro c hc
    obtain ⟨d, _, rfl⟩ := List.mem_map.1 hc
    exact Or.inl rfl
  · rw [List.map_map]
    exact hnd
  · intro wp hwp c hc hcw
    obtain ⟨d, hd, rfl⟩ := List.mem_map.1 hc
    exact hpidc wp hwp d hd hcw
  · intro c hc hfl
    obtain ⟨d, _, rfl⟩ := List.mem_map.1 hc
    simp at hfl
  · intro c hc hfl
    obtain ⟨d, _, rfl⟩ := List.mem_map.1 hc
    simp at hfl
  · intro wp hwp
    simp at hwp

/-! ### C8: the sweep characterization -/

theorem removeWin_cons (w : Nat) (x : Client) (xs : List Client) :
    removeWin w (x :: xs) = if x.win = w then xs else x :: removeWin w xs := rfl

theorem removeWin_append_no_match (w : Nat) (dn : List Client)
    (hdn : ∀ d ∈ dn, d.win ≠ w) (l : List Client) :
    removeWin w (dn ++ l) = dn ++ removeWin w l := by
  induction dn with
  | nil => rfl
  | cons d ds ih =>
    rw [List.cons_append, removeWin_cons, if_neg (hdn d (by simp)),
      ih (fun x hx => hdn x (by simp [hx])), List.cons_append]

theorem setActiveWin_no_match (w : Nat) (l : List Client)
    (h : ∀ d ∈ l, d.win ≠ w) : setActiveWin w l = l := by
  unfold setActiveWin
  induction l with
  | nil => rfl
  | cons d ds ih =>
    rw [List.map_cons, if_neg (h d (by simp)),
      ih (fun x hx => h x (by simp [hx]))]

theorem setActiveWin_char (w : Nat) (dn : List Client) (c : Client)
    (rest : List Client) (hdn : ∀ d ∈ dn, d.win ≠ w) (hc : c.win = w)
    (hrest : ∀ d ∈ rest, d.win ≠ w) :
    setActiveWin w (dn ++ c :: rest) =
      dn ++ { c with isfullscreen := 0 } :: rest := by
  have h1 : setActiveWin w dn = dn := setActiveWin_no_match w dn hdn
  have h2 : setActiveWin w rest = rest := setActiveWin_no_match w rest hrest
  unfold setActiveWin at h1 h2 ⊢
  rw [List.map_append, h1, List.map_cons, if_pos hc, h2]

theorem sweep_clients_char : ∀ (l : List Client) (wm : WM) (dn : List Client),
    wm.clients = dn ++ l → ((dn ++ l).map (fun c => c.win)).Nodup →
    (sweep l wm).clients =
      dn ++ (l.filter (fun c => !(c.isfullscreen == -1))).map
        (fun c => { c with isfullscreen := 0 }) := by
  intro l
  induction l with
  | nil =>
    intro wm dn hcl _
    simp only [sweep, List.filter_nil, List.map_nil, List.append_nil]
    rw [hcl, List.append_nil]
  | cons c rest ih =>
    intro wm dn hcl hnd
    have hdn : ∀ d ∈ dn, d.win ≠ c.win := by
      intro d hd he
      have h1 : (dn.map (fun c => c.win)).Nodup ∧ _ := ⟨(List.nodup_append.1 (by rwa [List.map_append] at hnd)).1,
        trivial⟩
      have hdisj := (List.nodup_append.1 (by rwa [List.map_append] at hnd)).2.2
      exact hdisj (List.mem_map.2 ⟨d, hd, rfl⟩) (by simp [he])
    have hrest : ∀ d ∈ rest, d.win ≠ c.win := by
      have h2 : ((c :: rest).map (fun x => x.win)).Nodup :=
        (List.nodup_append.1 (by rwa [List.map_append] at hnd)).2.1
      simp only [List.map_cons, List.nodup_cons] at h2
      intro d hd he
      exact h2.1 (List.mem_map.2 ⟨d, hd, he⟩)
    unfold sweep
    split_ifs with hstale
    · have hrm : removeWin c.win wm.clients = dn ++ rest := by
        rw [hcl, removeWin_append_no_match c.win dn hdn]
        unfold removeWin
        rw [if_pos rfl]
      have hcl' : (unmanageWM wm c.win).clients = dn ++ rest := by
        rw [unmanageWM_clients, hrm]
      have hnd' : ((dn ++ rest).map (fun c => c.win)).Nodup := by
        have hsub : List.Sublist (dn ++ rest) (dn ++ c :: rest) :=
          List.Sublist.append (List.Sublist.refl dn) (List.sublist_cons_self c rest)
        exact List.Nodup.sublist (hsub.map _) hnd
      rw [ih (unmanageWM wm c.win) dn hcl' hnd']
      have : (List.filter (fun c => !(c.isfullscreen == -1)) (c :: rest)) =
          List.filter (fun c => !(c.isfullscreen == -1)) rest := by
        rw [List.filter_cons_of_neg]
        simp [hstale]
      rw [this]
    · have hsa : setActiveWin c.win wm.clients =
          dn ++ { c with isfullscreen := 0 } :: rest := by
        rw [hcl]
        exact setActiveWin_char c.win dn c rest hdn rfl hrest
      have hcl' : ({ wm with clients := setActiveWin c.win wm.clients } : WM).clients =
          (dn ++ [({ c with isfullscreen := 0 } : Client)]) ++ rest := by
        rw [show ({ wm with clients := setActiveWin c.win wm.clients } : WM).clients =
          setActiveWin c.win wm.clients from rfl, hsa, List.append_assoc,
          List.singleton_append]
      have hnd' : (((dn ++ [({ c with isfullscreen := 0 } : Client)]) ++ rest).map
          (fun c => c.win)).Nodup := by
        have : ((dn ++ [({ c with isfullscreen := 0 } : Client)]) ++ rest).map (fun c => c.win) =
            (dn ++ c :: rest).map (fun c => c.win) := by
          simp [List.map_append]
        rw [this]
        exact hnd
      rw [ih _ _ hcl' hnd']
      have : (List.filter (fun c => !(c.isfullscreen == -1)) (c :: rest)) =
          c :: List.filter (fun c => !(c.isfullscreen == -1)) rest := by
        rw [List.filter_cons_of_pos]
        simp [hstale]
      rw [this, List.map_cons, List.append_assoc, List.singleton_append]


/-! ### C8: facts about the reconciler's output registry -/

theorem updateclients_chars (e : Env) (he : frOK e) (L : List (Nat × Nat))
    (hLc : ∀ wp ∈ L, ∀ wq ∈ L, wp.1 = wq.1 → wp.2 = wq.2) (wm : WM)
    (hnd : (wm.clients.map (fun c => c.win)).Nodup)
    (hpidc : ∀ wp ∈ L, ∀ c ∈ wm.clients, c.win = wp.1 → c.pid = wp.2) :
    ∃ cur, P1Inv e L L cur ∧
      (updateclientsWM e L wm).clients =
        cur.filter (fun c => !(c.isfullscreen == -1)) := by
  have hms : (markStale wm).clients =
      wm.clients.map (fun c => { c with isfullscreen := -1 }) := rfl
  have hgt : globaltags (markStale wm) = globaltags wm := rfl
  have hinv0 : P1Inv e L [] (markStale wm).clients := by
    rw [hms]
    exact markStale_P1Inv e L wm.clients hnd hpidc
  have hinv : P1Inv e L L (L.foldl (stepC e (globaltags wm)) (markStale wm).clients) := by
    have := foldl_stepC_P1Inv e he L hLc (globaltags wm) L [] (markStale wm).clients
      (fun wp h => h) hinv0
    simpa using this
  set wm1 := L.foldl (stepWin e) (markStale wm) with hwm1
  have hcl : wm1.clients = L.foldl (stepC e (globaltags wm)) (markStale wm).clients := by
    rw [hwm1, foldl_stepWin_clients, hgt]
  refine ⟨wm1.clients, by rw [hcl]; exact hinv, ?_⟩
  have hnd1 : ((([] : List Client) ++ wm1.clients).map (fun c => c.win)).Nodup := by
    simp only [List.nil_append]
    rw [hcl]
    exact hinv.nodup
  have := sweep_clients_char wm1.clients wm1 [] (by simp) hnd1
  have hflags : ∀ c ∈ wm1.clients, c.isfullscreen = -1 ∨ c.isfullscreen = 0 := by
    rw [hcl]
    exact hinv.flags
  have hmapid : (wm1.clients.filter (fun c => !(c.isfullscreen == -1))).map
      (fun c => { c with isfullscreen := 0 }) =
      wm1.clients.filter (fun c => !(c.isfullscreen == -1)) := by
    have : ∀ c ∈ wm1.clients.filter (fun c => !(c.isfullscreen == -1)),
        ({ c with isfullscreen := 0 } : Client) = c := by
      intro c hc
      have hm := List.mem_filter.1 hc
      have h0 : c.isfullscreen = 0 := by
        rcases hflags c hm.1 with h | h
        · exfalso
          have := hm.2
          rw [h] at this
          simp at this
        · exact h
      cases c
      simp_all
    rw [List.map_congr_left this]
    exact List.map_id _
  show (sweep wm1.clients wm1).clients = _
  rw [this, List.nil_append, hmapid]

theorem W_of_P1Inv (e : Env) (L : List (Nat × Nat)) (cur : List Client)
    (hinv : P1Inv e L L cur) :
    (∀ c ∈ cur.filter (fun c => !(c.isfullscreen == -1)), c.isfullscreen = 0) ∧
    (∀ wp ∈ L, (cur.filter (fun c => !(c.isfullscreen == -1))).any
      (matchPred e wp.1 wp.2) = true) ∧
    (∀ c ∈ cur.filter (fun c => !(c.isfullscreen == -1)),
      ∃ wp ∈ L, matchPred e wp.1 wp.2 c = true) ∧
    (∀ wp ∈ L, (cur.filter (fun c => !(c.isfullscreen == -1))).countP
      (matchPred e wp.1 wp.2) ≤ 1) := by
  have hact : ∀ c ∈ cur.filter (fun c => !(c.isfullscreen == -1)),
      c ∈ cur ∧ c.isfullscreen = 0 := by
    intro c hc
    have hm := List.mem_filter.1 hc
    refine ⟨hm.1, ?_⟩
    rcases hinv.flags c hm.1 with h | h
    · exfalso
      have := hm.2
      rw [h] at this
      simp at this
    · exact h
  refine ⟨fun c hc => (hact c hc).2, ?_, ?_, ?_⟩
  · intro wp hwp
    obtain ⟨c, hc, hfl, hcp⟩ := hinv.covered wp hwp
    rw [List.any_eq_true]
    refine ⟨c, List.mem_filter.2 ⟨hc, by rw [hfl]; simp⟩, hcp⟩
  · intro c hc
    exact hinv.actOrig c (hact c hc).1 (hact c hc).2
  · intro wp hwp
    refine countP_le_one _ _ ?_ ?_
    · have hsub : List.Sublist (cur.filter (fun c => !(c.isfullscreen == -1))) cur :=
        List.filter_sublist cur
      exact List.Nodup.sublist (hsub.map _) hinv.nodup
    · intro c1 h1 c2 h2 hp1 hp2
      have e1 := hinv.firstM c1 (hact c1 h1).1 (hact c1 h1).2 wp hwp hp1
      have e2 := hinv.firstM c2 (hact c2 h2).1 (hact c2 h2).2 wp hwp hp2
      rw [e1] at e2
      exact Option.some.inj e2

/-! ### C8: transport of the facts along a layout pass -/

/-- The part of a client the reconciler's matching reads: handle, pid and
the staleness marker. -/
def core8 (c : Client) : Nat × Nat × Int := (c.win, c.pid, c.isfullscreen)

theorem matchPred_core8 (e : Env) (w p : Nat) {a b : Client}
    (h : core8 a = core8 b) : matchPred e w p a = matchPred e w p b := by
  simp only [core8, Prod.mk.injEq] at h
  simp only [matchPred, h.1, h.2.1]

theorem placeTile_core8 (mons : List Monitor) (mtags nm : Nat) (gap : Int)
    (g : TileGeom) : ∀ (i : Nat) (cs : List Client),
    (placeTile mons mtags nm gap g i cs).map core8 = cs.map core8 := by
  intro i cs
  induction cs generalizing i with
  | nil => rfl
  | cons c cs ih =>
    unfold placeTile
    split_ifs with h h2 <;> simp only [List.map_cons, ih] <;> rfl

theorem monocleMon_core8 (mons : List Monitor) (gap : Int) (m : Monitor)
    (cs : List Client) : (monocleMon mons gap m cs).map core8 = cs.map core8 := by
  unfold monocleMon
  rw [List.map_map]
  refine List.map_congr_left (fun c hc => ?_)
  simp only [Function.comp_apply]
  split_ifs <;> rfl

theorem tileMon_core8 (mons : List Monitor) (gap : Int) (nm : Nat) (mfact : Q)
    (cs : List Client) (m : Monitor) :
    (tileMon mons gap nm mfact cs m).map core8 = cs.map core8 := by
  simp only [tileMon]
  split_ifs with h
  · rfl
  · exact placeTile_core8 _ _ _ _ _ _ _

theorem foldl_core8 {β : Type} (f : List Client → β → List Client)
    (hf : ∀ cs b, (f cs b).map core8 = cs.map core8) :
    ∀ (bs : List β) (cs : List Client), (bs.foldl f cs).map core8 = cs.map core8 := by
  intro bs
  induction bs with
  | nil => intro cs; rfl
  | cons b bs ih => intro cs; rw [List.foldl_cons, ih, hf]

theorem arrangeWM_core8 (wm : WM) :
    (arrangeWM wm).clients.map core8 = wm.clients.map core8 := by
  rw [arrangeWM_clients]
  unfold applyLayout
  split_ifs
  · exact foldl_core8 _ (fun cs m => tileMon_core8 _ _ _ _ cs m) wm.monitors wm.clients
  · exact foldl_core8 _ (fun cs m => monocleMon_core8 _ _ m cs) wm.monitors wm.clients
  · rfl

theorem countP_eq_of_core8 (p : Client → Bool)
    (hp : ∀ a b, core8 a = core8 b → p a = p b) :
    ∀ (as bs : List Client), as.map core8 = bs.map core8 →
    as.countP p = bs.countP p := by
  intro as
  induction as with
  | nil =>
    intro bs h
    cases bs with
    | nil => rfl
    | cons b bs => simp at h
  | cons a as ih =>
    intro bs h
    cases bs with
    | nil => simp at h
    | cons b bs =>
      simp only [List.map_cons, List.cons.injEq] at h
      rw [List.countP_cons, List.countP_cons, hp a b h.1, ih bs h.2]

theorem W_transport (e : Env) (L : List (Nat × Nat)) (as bs : List Client)
    (h : as.map core8 = bs.map core8)
    (W1 : ∀ c ∈ as, c.isfullscreen = 0)
    (W2 : ∀ wp ∈ L, as.any (matchPred e wp.1 wp.2) = true)
    (W3 : ∀ c ∈ as, ∃ wp ∈ L, matchPred e wp.1 wp.2 c = true)
    (W4 : ∀ wp ∈ L, as.countP (matchPred e wp.1 wp.2) ≤ 1) :
    (∀ c ∈ bs, c.isfullscreen = 0) ∧
    (∀ wp ∈ L, bs.any (matchPred e wp.1 wp.2) = true) ∧
    (∀ c ∈ bs, ∃ wp ∈ L, matchPred e wp.1 wp.2 c = true) ∧
    (∀ wp ∈ L, bs.countP (matchPred e wp.1 wp.2) ≤ 1) := by
  have hba : ∀ c ∈ bs, ∃ a ∈ as, core8 a = core8 c := by
    intro c hc
    have : core8 c ∈ as.map core8 := by
      rw [h]
      exact List.mem_map.2 ⟨c, hc, rfl⟩
    obtain ⟨a, ha, hac⟩ := List.mem_map.1 this
    exact ⟨a, ha, hac⟩
  have hab : ∀ a ∈ as, ∃ c ∈ bs, core8 a = core8 c := by
    intro a ha
    have : core8 a ∈ bs.map core8 := by
      rw [← h]
      exact List.mem_map.2 ⟨a, ha, rfl⟩
    obtain ⟨c, hc, hac⟩ := List.mem_map.1 this
    exact ⟨c, hc, hac.symm⟩
  refine ⟨?_, ?_, ?_, ?_⟩
  · intro c hc
    obtain ⟨a, ha, hac⟩ := hba c hc
    have : a.isfullscreen = c.isfullscreen := by
      simp only [core8, Prod.mk.injEq] at hac
      exact hac.2.2
    rw [← this]
    exact W1 a ha
  · intro wp hwp
    simp only [List.any_eq_true] at W2 ⊢
    obtain ⟨a, ha, hpa⟩ := W2 wp hwp
    obtain ⟨c, hc, hac⟩ := hab a ha
    exact ⟨c, hc, by rw [← matchPred_core8 e wp.1 wp.2 hac]; exact hpa⟩
  · intro c hc
    obtain ⟨a, ha, hac⟩ := hba c hc
    obtain ⟨wp, hwp, hpa⟩ := W3 a ha
    exact ⟨wp, hwp, by rw [← matchPred_core8 e wp.1 wp.2 hac]; exact hpa⟩
  · intro wp hwp
    rw [← countP_eq_of_core8 (matchPred e wp.1 wp.2)
      (fun a b hc => matchPred_core8 e wp.1 wp.2 hc) as bs h]
    exact W4 wp hwp


/-! ### C8: the second pass only re-marks -/

/-- A client transform that can only touch the staleness marker. -/
def flagOnly (f : Client → Client) : Prop :=
  ∀ c, (f c).name = c.name ∧ (f c).frame = c.frame ∧ (f c).win = c.win ∧
    (f c).pid = c.pid ∧ (f c).tags = c.tags ∧ (f c).isfloating = c.isfloating

theorem flagOnly_matchPred (e : Env) (w p : Nat) (f : Client → Client)
    (hf : flagOnly f) (c : Client) :
    matchPred e w p (f c) = matchPred e w p c := by
  obtain ⟨_, _, h3, h4, _, _⟩ := hf c
  simp only [matchPred, h3, h4]

theorem flagOnly_set (f : Client → Client) (hf : flagOnly f) (c : Client) (x : Int) :
    ({ f c with isfullscreen := x } : Client) = { c with isfullscreen := x } := by
  obtain ⟨h1, h2, h3, h4, h5, h6⟩ := hf c
  cases hc : f c
  cases c
  simp_all

theorem any_map_flagOnly (e : Env) (w p : Nat) (f : Client → Client)
    (hf : flagOnly f) (cs : List Client) :
    (cs.map f).any (matchPred e w p) = cs.any (matchPred e w p) := by
  induction cs with
  | nil => rfl
  | cons c cs ih =>
    simp only [List.map_cons, List.any_cons, ih, flagOnly_matchPred e w p f hf c]

theorem countP_map_flagOnly (e : Env) (w p : Nat) (f : Client → Client)
    (hf : flagOnly f) (cs : List Client) :
    (cs.map f).countP (matchPred e w p) = cs.countP (matchPred e w p) := by
  induction cs with
  | nil => rfl
  | cons c cs ih =>
    simp only [List.map_cons, List.countP_cons, ih, flagOnly_matchPred e w p f hf c]

/-- Marking every match at once. -/
def markAll (p : Client → Bool) (cs : List Client) : List Client :=
  cs.map (fun c => if p c then { c with isfullscreen := 0 } else c)

theorem markAll_of_countP_zero (p : Client → Bool) (cs : List Client)
    (h : cs.countP p = 0) : markAll p cs = cs := by
  unfold markAll
  have hz := List.countP_eq_zero.1 h
  have : ∀ c ∈ cs, (if p c then ({ c with isfullscreen := 0 } : Client) else c) = c := by
    intro c hc
    rw [if_neg (hz c hc)]
  rw [List.map_congr_left this]
  exact List.map_id _

theorem markFirstMatch_eq_markAll (p : Client → Bool) (cs : List Client)
    (h : cs.countP p ≤ 1) : markFirstMatch p cs = markAll p cs := by
  induction cs with
  | nil => rfl
  | cons c cs ih =>
    rw [List.countP_cons] at h
    unfold markFirstMatch markAll
    rw [List.map_cons]
    split_ifs with hc
    · have hz : cs.countP p = 0 := by
        rw [if_pos hc] at h
        omega
      have hmap : List.map (fun c => if p c = true then
          ({ c with isfullscreen := 0 } : Client) else c) cs = cs :=
        markAll_of_countP_zero p cs hz
      rw [hmap]
    · have h1 : cs.countP p ≤ 1 := by
        rw [if_neg hc] at h
        omega
      rw [ih h1]
      rfl

theorem pass2_fold (e : Env) (U0 : List Client) :
    ∀ (L : List (Nat × Nat)) (wmX : WM) (f : Client → Client), flagOnly f →
    wmX.clients = U0.map f →
    (∀ wp ∈ L, U0.any (matchPred e wp.1 wp.2) = true) →
    (∀ wp ∈ L, U0.countP (matchPred e wp.1 wp.2) ≤ 1) →
    ∃ g, flagOnly g ∧
      L.foldl (stepWin e) wmX = { wmX with clients := U0.map g } ∧
      (∀ c, (∃ wp ∈ L, matchPred e wp.1 wp.2 c = true) →
        g c = { c with isfullscreen := 0 }) ∧
      (∀ c, (∀ wp ∈ L, matchPred e wp.1 wp.2 c = false) → g c = f c) := by
  intro L
  induction L with
  | nil =>
    intro wmX f hf hcl _ _
    refine ⟨f, hf, ?_, ?_, fun c _ => rfl⟩
    · rw [List.foldl_nil, ← hcl]
    · intro c hc
      obtain ⟨wp, hwp, _⟩ := hc
      simp at hwp
  | cons wp L ih =>
    intro wmX f hf hcl hcov huni
    have hany : wmX.clients.any (matchPred e wp.1 wp.2) = true := by
      rw [hcl, any_map_flagOnly e wp.1 wp.2 f hf]
      exact hcov wp (by simp)
    have hstep : stepWin e wmX wp =
        { wmX with clients := markFirstMatch (matchPred e wp.1 wp.2) wmX.clients } := by
      simp only [stepWin]
      rw [if_pos hany]
    have hcnt : wmX.clients.countP (matchPred e wp.1 wp.2) ≤ 1 := by
      rw [hcl, countP_map_flagOnly e wp.1 wp.2 f hf]
      exact huni wp (by simp)
    have hmark : markFirstMatch (matchPred e wp.1 wp.2) wmX.clients =
        U0.map (fun c => if matchPred e wp.1 wp.2 (f c) then
          { f c with isfullscreen := 0 } else f c) := by
      rw [markFirstMatch_eq_markAll _ _ hcnt, hcl]
      unfold markAll
      rw [List.map_map]
      rfl
    set f1 : Client → Client := fun c => if matchPred e wp.1 wp.2 (f c) then
      { f c with isfullscreen := 0 } else f c with hf1
    have hf1' : flagOnly f1 := by
      intro c
      rw [hf1]
      simp only []
      split_ifs with h
      · obtain ⟨h1, h2, h3, h4, h5, h6⟩ := hf c
        exact ⟨h1, h2, h3, h4, h5, h6⟩
      · exact hf c
    have hcl1 : ({ wmX with clients := markFirstMatch (matchPred e wp.1 wp.2) wmX.clients } : WM).clients = U0.map f1 := by
      rw [show ({ wmX with clients := markFirstMatch (matchPred e wp.1 wp.2) wmX.clients } : WM).clients = markFirstMatch (matchPred e wp.1 wp.2) wmX.clients from rfl, hmark]
    obtain ⟨g, hg, hfold, hmatched, hunmatched⟩ :=
      ih { wmX with clients := markFirstMatch (matchPred e wp.1 wp.2) wmX.clients }
        f1 hf1' hcl1 (fun wq hq => hcov wq (List.mem_cons_of_mem _ hq))
        (fun wq hq => huni wq (List.mem_cons_of_mem _ hq))
    refine ⟨g, hg, ?_, ?_, ?_⟩
    · rw [List.foldl_cons, hstep, hfold]
    · intro c hc
      by_cases hL : ∃ wq ∈ L, matchPred e wq.1 wq.2 c = true
      · exact hmatched c hL
      · have hnoL : ∀ wq ∈ L, matchPred e wq.1 wq.2 c = false := by
          intro wq hq
          cases hx : matchPred e wq.1 wq.2 c
          · rfl
          · exact absurd ⟨wq, hq, hx⟩ hL
        have hcwp : matchPred e wp.1 wp.2 c = true := by
          obtain ⟨wq, hq, hx⟩ := hc
          rcases List.mem_cons.1 hq with rfl | hq'
          · exact hx
          · rw [hnoL wq hq'] at hx
            exact absurd hx (by simp)
        rw [hunmatched c hnoL, hf1]
        simp only []
        rw [if_pos (by rw [flagOnly_matchPred e wp.1 wp.2 f hf]; exact hcwp)]
        exact flagOnly_set f hf c 0
    · intro c hc
      rw [hunmatched c (fun wq hq => hc wq (List.mem_cons_of_mem _ hq)), hf1]
      simp only []
      rw [if_neg (by rw [flagOnly_matchPred e wp.1 wp.2 f hf, hc wp (by simp)]; simp)]


theorem setActiveWin_id_of_active (w : Nat) (cs : List Client)
    (h : ∀ c ∈ cs, c.isfullscreen = 0) : setActiveWin w cs = cs := by
  unfold setActiveWin
  have : ∀ c ∈ cs, (if c.win = w then ({ c with isfullscreen := 0 } : Client) else c) = c := by
    intro c hc
    split_ifs with hw
    · have h0 := h c hc
      cases c
      simp_all
    · rfl
  rw [List.map_congr_left this]
  exact List.map_id _

theorem sweep_id (l : List Client) : ∀ (wm : WM),
    (∀ c ∈ l, c.isfullscreen = 0) → (∀ c ∈ wm.clients, c.isfullscreen = 0) →
    sweep l wm = wm := by
  induction l with
  | nil => intro wm _ _; rfl
  | cons c rest ih =>
    intro wm hl hwm
    unfold sweep
    rw [if_neg (by rw [hl c (by simp)]; simp)]
    rw [setActiveWin_id_of_active c.win wm.clients hwm]
    exact ih wm (fun x hx => hl x (by simp [hx])) hwm

theorem updateclients_id (e : Env) (L : List (Nat × Nat)) (wm1 : WM)
    (W1 : ∀ c ∈ wm1.clients, c.isfullscreen = 0)
    (W2 : ∀ wp ∈ L, wm1.clients.any (matchPred e wp.1 wp.2) = true)
    (W3 : ∀ c ∈ wm1.clients, ∃ wp ∈ L, matchPred e wp.1 wp.2 c = true)
    (W4 : ∀ wp ∈ L, wm1.clients.countP (matchPred e wp.1 wp.2) ≤ 1) :
    updateclientsWM e L wm1 = wm1 := by
  have hstaleF : flagOnly (fun c => ({ c with isfullscreen := -1 } : Client)) :=
    fun c => ⟨rfl, rfl, rfl, rfl, rfl, rfl⟩
  have hcl : (markStale wm1).clients =
      wm1.clients.map (fun c => { c with isfullscreen := -1 }) := rfl
  obtain ⟨g, hg, hfold, hmatched, _⟩ :=
    pass2_fold e wm1.clients L (markStale wm1) _ hstaleF hcl W2 W4
  have hmapg : wm1.clients.map g = wm1.clients := by
    have : ∀ c ∈ wm1.clients, g c = c := by
      intro c hc
      rw [hmatched c (W3 c hc)]
      have h0 := W1 c hc
      cases c
      simp_all
    rw [List.map_congr_left this]
    exact List.map_id _
  have hfold2 : L.foldl (stepWin e) (markStale wm1) = wm1 := by
    rw [hfold, hmapg]
    rfl
  show sweep (L.foldl (stepWin e) (markStale wm1)).clients
      (L.foldl (stepWin e) (markStale wm1)) = wm1
  rw [hfold2]
  exact sweep_id wm1.clients wm1 W1 W1

theorem scanWM_wc (e : Env) (L : List (Nat × Nat)) (wm : WM) :
    (scanWM e L wm).windowschanged = false := by
  simp only [scanWM]
  split_ifs with h
  · rfl
  · push_neg at h
    exact Bool.eq_false_iff.2 h.2

theorem scanWM_cases (e : Env) (L : List (Nat × Nat)) (wm : WM) :
    scanWM e L wm = updateclientsWM e L wm ∨
    scanWM e L wm =
      { arrangeWM (updateclientsWM e L wm) with windowschanged := false } := by
  simp only [scanWM]
  split_ifs with h
  · exact Or.inr rfl
  · exact Or.inl rfl

theorem scanWM_of_id (e : Env) (L : List (Nat × Nat)) (wm1 : WM)
    (hid : updateclientsWM e L wm1 = wm1) (hwc : wm1.windowschanged = false) :
    scanWM e L wm1 = wm1 := by
  simp only [scanWM]
  rw [if_neg]
  · exact hid
  · push_neg
    refine ⟨by rw [hid], ?_⟩
    rw [hid, hwc]
    simp

/-- C8.  Reconciliation is idempotent over an unchanged live window set:
with the enumerated windows (and the live geometry the environment
reports) fixed, running `scan` a second time performs no client additions
or removals and triggers no re-arrangement — the state after the second
`scan` is exactly the state after the first.  Hypotheses: live frames are
well-formed rationals, registry handles are unique, clients agree with
the enumeration about the owning pid of their window, and the enumeration
itself gives each window one owner. -/
theorem claimC8_reconciliation_idempotent (e : Env) (L : List (Nat × Nat)) (wm : WM)
    (hfr : frOK e)
    (hnd : (wm.clients.map (fun c => c.win)).Nodup)
    (hpidc : ∀ wp ∈ L, ∀ c ∈ wm.clients, c.win = wp.1 → c.pid = wp.2)
    (hLc : ∀ wp ∈ L, ∀ wq ∈ L, wp.1 = wq.1 → wp.2 = wq.2) :
    scanWM e L (scanWM e L wm) = scanWM e L wm := by
  obtain ⟨cur, hinv, hUcl⟩ := updateclients_chars e hfr L hLc wm hnd hpidc
  obtain ⟨W1U, W2U, W3U, W4U⟩ := W_of_P1Inv e L cur hinv
  rw [← hUcl] at W1U W2U W3U W4U
  set U := updateclientsWM e L wm with hU
  have hcore : U.clients.map core8 = (scanWM e L wm).clients.map core8 := by
    rcases scanWM_cases e L wm with h | h
    · rw [h]
    · rw [h]
      show U.clients.map core8 =
        (arrangeWM (updateclientsWM e L wm)).clients.map core8
      rw [arrangeWM_core8, hU]
  obtain ⟨W1, W2, W3, W4⟩ :=
    W_transport e L U.clients (scanWM e L wm).clients hcore W1U W2U W3U W4U
  have hid : updateclientsWM e L (scanWM e L wm) = scanWM e L wm :=
    updateclients_id e L (scanWM e L wm) W1 W2 W3 W4
  exact scanWM_of_id e L (scanWM e L wm) hid (scanWM_wc e L wm)


/-- A trivial environment for the C8 witness. -/
def envW : Env :=
  { fr := fun _ => rect0, nameOf := fun _ => "", appOf := fun _ => none,
    rules := [], snap := [] }

/-- Witness for C8: one live window scanned twice from the startup
state. -/
theorem claimC8_reconciliation_idempotent_witness :
    scanWM envW [(1, 5)] (scanWM envW [(1, 5)] (initWM [monC1])) =
      scanWM envW [(1, 5)] (initWM [monC1]) :=
  claimC8_reconciliation_idempotent envW [(1, 5)] (initWM [monC1])
    (fun _ => ⟨one_ne_zero, one_ne_zero, one_ne_zero, one_ne_zero⟩)
    (by decide) (by decide) (by decide)

end Mwm
